import Mathlib

/-!
Verification of the pronunciation-analysis backend (`project-3-sem/backend`).

This file shallowly embeds the security- and algorithm-relevant parts of the
repository and proves the frozen claims about them:

* `src/pronunciation/views.py` — the clip file server
  (`CorrectionClipDownloadAPIView.get`), the processing endpoint's input
  gating (`ProcessAudioAPIView.post`), the cache branch, and the
  filename allow-list `_FILENAME_RE`.
* `src/pronunciation/services/pronunciation_ai.py` — `_clean_text_words`,
  `find_bad_words` (including a faithful model of CPython `difflib.
  SequenceMatcher` as constructed there with `isjunk=None, autojunk=True`),
  `_safe_filename_part`, `generate_correction_clips_yandex`,
  `analyze_pronunciation`.
* The content-addressed cache identity: SHA-256 over the uploaded audio
  bytes followed by the UTF-8 reference text, and the deterministic
  `uuid.uuid5(uuid.NAMESPACE_URL, cache_key)` task identifier (SHA-1 based),
  both implemented bit-for-bit.

Machine integers are modelled as `Nat` with explicit reduction mod `2^32`
where the hash compression functions overflow.  Python strings are modelled
as Lean `String`; character classes (`\w`, `\s`, `str.lower`, `str.strip`)
are modelled on their ASCII fragment, which the proved properties do not
depend on.  Filesystem access is modelled by explicit oracle parameters so
that "no file read happens before validation" is expressible as oracle
independence.
-/

/-! ## The filename allow-list (`_FILENAME_RE = ^[A-Za-z0-9_.\-]+\.mp3$`) -/

/-- A character allowed by `_FILENAME_RE`'s class `[A-Za-z0-9_.\-]` and by
`_safe_filename_part`'s allow-list (the same class).  The regex names ASCII
characters explicitly, so ASCII `isAlpha`/`isDigit` are exact here. -/
def isAllowedFnChar (c : Char) : Bool :=
  c.isAlpha || c.isDigit || c = '_' || c = '.' || c = '-'

/-- `_FILENAME_RE.fullmatch(filename)`: one or more characters of the allowed
class followed by the literal suffix `.mp3`.  Since `.`, `m`, `p`, `3` are
all in the class, a full match is equivalent to: every character allowed,
the string ends with `".mp3"`, and at least one character precedes it. -/
def filenameOk (s : String) : Bool :=
  5 ≤ s.data.length
    && s.data.drop (s.data.length - 4) = ['.', 'm', 'p', '3']
    && s.data.all isAllowedFnChar

/-! ## `_safe_filename_part` (pronunciation_ai.py) -/

/-- `re.sub(r"[^A-Za-z0-9_.\-]", "_", word)`: replace each disallowed
character with an underscore. -/
def replaceDisallowed (l : List Char) : List Char :=
  l.map fun c => if isAllowedFnChar c then c else '_'

/-- `re.sub(r"_+", "_", part)`: collapse each run of underscores to one. -/
def collapseUnderscoreRuns : List Char → List Char
  | [] => []
  | [c] => [c]
  | a :: b :: rest =>
    if a = '_' && b = '_' then collapseUnderscoreRuns (b :: rest)
    else a :: collapseUnderscoreRuns (b :: rest)

/-- `part.strip("_")`: drop leading and trailing underscores. -/
def stripUnderscores (l : List Char) : List Char :=
  ((l.dropWhile (· = '_')).reverse.dropWhile (· = '_')).reverse

/-- `_safe_filename_part(word, max_len=40)`. -/
def safeFilenamePart (word : String) : String :=
  let part := replaceDisallowed word.data
  let part := collapseUnderscoreRuns part
  let part := stripUnderscores part
  let part := if part = [] then "word".data else part
  String.mk (part.take 40)

/-- The clip filename built in `generate_correction_clips_yandex`:
`f"{i}_{safe_word}.mp3"` with `i` the 1-based index from `enumerate`. -/
def clipFilename (i : Nat) (word : String) : String :=
  Nat.repr i ++ "_" ++ safeFilenamePart word ++ ".mp3"

/-! ## `uuid.UUID(task_id)` canonicalization (views.py, download gate 1)

CPython's `uuid.UUID(hex)` constructor deletes every occurrence of `"urn:"`
and `"uuid:"`, strips curly braces from both ends, deletes every hyphen,
requires exactly 32 characters, and parses them with `int(_, 16)`; `str` of
the result prints the 128-bit value as 32 lowercase hex digits in 8-4-4-4-12
hyphen grouping.  We model `int(_, 16)` as requiring plain hex digits: the
exotic forms `int` additionally tolerates (signs, whitespace, `0x`,
underscores) can never survive the view's `str(parsed) == task_id` check,
because the canonical serialization contains none of those characters, so
gate 1 as a whole is modelled exactly. -/

def isBraceChar (c : Char) : Bool :=
  c = Char.ofNat 123 || c = Char.ofNat 125

def pyStripBraces (l : List Char) : List Char :=
  ((l.dropWhile isBraceChar).reverse.dropWhile isBraceChar).reverse

/-- `str.replace(pat, rep)` for a non-empty `pat`: replace non-overlapping
occurrences left to right.  Each pass consumes at least one character, so a
fuel of the input length makes the recursion structural without ever
running out. -/
def replaceAllFuel (pat rep : List Char) : Nat → List Char → List Char
  | 0, l => l
  | _, [] => []
  | fuel + 1, c :: rest =>
    if pat.isPrefixOf (c :: rest) then
      rep ++ replaceAllFuel pat rep fuel (rest.drop (pat.length - 1))
    else c :: replaceAllFuel pat rep fuel rest

def pyReplace (l pat rep : List Char) : List Char :=
  replaceAllFuel pat rep l.length l

def isHexDigitChar (c : Char) : Bool :=
  c.isDigit || ('a' ≤ c && c ≤ 'f') || ('A' ≤ c && c ≤ 'F')

/-- Lowercase a hex digit (the only case-mapping `str(UUID(...))` needs:
`%032x` prints the parsed value back in lowercase). -/
def hexToLower (c : Char) : Char :=
  if 'A' ≤ c && c ≤ 'F' then Char.ofNat (c.toNat + 32) else c

/-- Insert the canonical 8-4-4-4-12 hyphens into 32 hex digits. -/
def insertUuidHyphens (l : List Char) : List Char :=
  l.take 8 ++ '-' :: (l.drop 8).take 4 ++ '-' :: (l.drop 12).take 4
    ++ '-' :: (l.drop 16).take 4 ++ '-' :: l.drop 20

/-- `str(uuid.UUID(s))`, or `none` when the constructor raises.  Since the
surviving 32 characters are exactly the hex digits of the 128-bit value,
`%032x` reproduces them lowercased, with hyphens inserted. -/
def pyUUIDCanon (s : String) : Option String :=
  let h := pyReplace (pyReplace s.data "urn:".data []) "uuid:".data []
  let h := pyReplace (pyStripBraces h) "-".data []
  if h.length = 32 && h.all isHexDigitChar then
    some (String.mk (insertUuidHyphens (h.map hexToLower)))
  else
    none

/-- Download gate 1: `task_id` parses as a UUID and re-serializes to itself. -/
def uuidGate (tid : String) : Bool :=
  pyUUIDCanon tid = some tid

/-! ## The clip file server (`CorrectionClipDownloadAPIView.get`)

Paths are modelled as lists of components under an abstract absolute media
root.  `Path.resolve()` is modelled by its lexical normalization (`..` pops,
`.` and empty components vanish); symlink resolution is outside a pure
model, and the claims under proof do not depend on it.  The filesystem is an
oracle `fs : List String → Bool` answering `exists() and is_file()`; the
view consults it only after all validation gates. -/

inductive ServeResult where
  | invalidName
  | notFound
  | stream (path : List String)
  deriving DecidableEq

/-- Lexical `Path.resolve()` on a component list. -/
def resolveSegs (segs : List String) : List String :=
  segs.foldl
    (fun acc s =>
      if s = "." || s = "" then acc
      else if s = ".." then acc.dropLast
      else acc ++ [s])
    []

/-- `(MEDIA_ROOT / 'audio_tasks' / task_id / 'correction_audio').resolve()`. -/
def clipBase (root : List String) (tid : String) : List String :=
  resolveSegs (root ++ ["audio_tasks", tid, "correction_audio"])

/-- `(base_dir / filename).resolve()`.  A filename past gate 2 contains no
path separator, so it joins as a single component. -/
def clipPath (root : List String) (tid fn : String) : List String :=
  resolveSegs (clipBase root tid ++ [fn])

/-- The three validation gates of the download view, in order: canonical
UUID, filename allow-list, post-resolution containment
(`file_path.relative_to(base_dir)` succeeds iff `base_dir` is a path
prefix of `file_path`). -/
def gatesPass (root : List String) (tid fn : String) : Bool :=
  uuidGate tid
    && !(fn = "" || !filenameOk fn)
    && (clipBase root tid).isPrefixOf (clipPath root tid fn)

/-- `CorrectionClipDownloadAPIView.get`, with every `'invalid file name'`
rejection collapsed to the single constructor the client observes. -/
def serve (root : List String) (fs : List String → Bool) (tid fn : String) :
    ServeResult :=
  if !uuidGate tid then .invalidName
  else if fn = "" || !filenameOk fn then .invalidName
  else
    let base := clipBase root tid
    let fp := clipPath root tid fn
    if !base.isPrefixOf fp then .invalidName
    else if !fs fp then .notFound
    else .stream fp

/-! ## Processing-endpoint input gating (`ProcessAudioAPIView.post`)

The multipart fields reach the view as optional strings.  The view never
invokes `PronunciationCheckSerializer`; the model therefore carries the
`text_id` field and the audio filename so that the claims about them can be
stated, but — like the view — only reads `text`, audio presence, and
`enable_tts`. -/

structure ProcReq where
  text : Option String
  textId : Option Int
  audioName : Option String
  enableTts : Option String
  deriving DecidableEq

deriving instance DecidableEq for Except

/-- `str.strip()` (ASCII whitespace fragment). -/
def pyStripWs (l : List Char) : List Char :=
  ((l.dropWhile Char.isWhitespace).reverse.dropWhile Char.isWhitespace).reverse

/-- `_parse_bool` (views.py): `None` yields the default; otherwise
`str(value).strip().lower()` must be one of the recognized tokens. -/
def parseBool (v : Option String) (default : Bool) : Except Unit Bool :=
  match v with
  | none => .ok default
  | some s =>
    let t := String.mk ((pyStripWs s.data).map Char.toLower)
    if t = "1" || t = "true" || t = "yes" || t = "y" || t = "on" then .ok true
    else if t = "0" || t = "false" || t = "no" || t = "n" || t = "off" || t = "" then
      .ok false
    else .error ()

/-- The pre-analysis validation of `ProcessAudioAPIView.post`: the returned
`some msg` is the 400 rejection, `none` means the request proceeds to
hashing/analysis.  `apiKey`/`folderId` model `settings.YANDEX_API_KEY` /
`settings.YANDEX_FOLDER_ID` (absent attribute ≡ empty string). -/
def processValidate (apiKey folderId : String) (r : ProcReq) : Option String :=
  let text := pyStripWs (r.text.getD "").data
  if text = [] then some "text is required"
  else if r.audioName = none then some "audio is required"
  else
    match parseBool r.enableTts false with
    | .error _ => some "enable_tts must be a boolean"
    | .ok enableTts =>
      if enableTts && (pyStripWs apiKey.data = [] || pyStripWs folderId.data = []) then
        some "YANDEX_API_KEY/YANDEX_FOLDER_ID not configured"
      else none

/-! ## The analysis record and the cache branch (views.py lines 143–176) -/

structure Analysis where
  recognizedText : String
  mispronouncedWords : List String
  deriving DecidableEq

inductive ProcResult where
  | ok (a : Analysis)
  | serverError
  deriving DecidableEq

/-- The cache branch of `ProcessAudioAPIView.post` as a pure function of its
three observable inputs: whether `analysis.json` exists, what it parses to
(`none` models `json.loads` raising, after which the code sets
`analysis = {}` and the later `.get(..., default) or default` reads yield
empty values), and what recomputation would produce (`.error` models
`analyze_pronunciation` raising).  The second component records whether a
freshly computed analysis was written back to the record file. -/
def cacheBranch (fileExists : Bool) (parsed : Option Analysis)
    (compute : Except Unit Analysis) : ProcResult × Bool :=
  if fileExists then
    match parsed with
    | some a => (.ok a, false)
    | none => (.ok ⟨"", []⟩, false)
  else
    match compute with
    | .ok a => (.ok a, true)
    | .error _ => (.serverError, false)

/-! ## `analyze_pronunciation` (pronunciation_ai.py)

Model-path resolution and the Vosk recognizer are external I/O; the
transcript they produce enters the model as the `recognized` parameter.
The mismatch detector is a parameter too, so that "the error path never
runs mismatch detection" is expressible as detector independence; the
pipeline instantiates it with `find_bad_words` (defined below). -/

def analyzeWith (detector : String → String → List String)
    (recognized referenceText : String) : Except String Analysis :=
  if recognized = "" then
    .error "Could not recognize any speech from the audio."
  else
    .ok ⟨recognized, detector referenceText recognized⟩

/-! ## `generate_correction_clips_yandex` (pronunciation_ai.py)

`ex` is the `out_file.exists()` oracle and `synth` the outcome of
`synthesize_word_yandex` (network success).  Generated filenames carry
distinct 1-based index prefixes, so iterations touch distinct files and the
static oracles are faithful. -/

def genClipsLoop (ex synth : String → Bool) : List String → Nat →
    List (String × String)
  | [], _ => []
  | w :: ws, i =>
    let filename := clipFilename i w
    let rest := genClipsLoop ex synth ws (i + 1)
    if !ex filename then
      if synth w then (w, filename) :: rest else rest
    else (w, filename) :: rest

/-- `generate_correction_clips_yandex`; `.error` models the `RuntimeError`
on missing credentials.  Note the truncation guard is
`if max_clips and max_clips > 0`, i.e. it fires only for a strictly
positive cap. -/
def generateCorrectionClips (ex synth : String → Bool) (words : List String)
    (apiKey folderId : String) (maxClips : Int) :
    Except Unit (List (String × String)) :=
  if apiKey = "" || folderId = "" then .error ()
  else
    let words := if 0 < maxClips then words.take maxClips.toNat else words
    .ok (genClipsLoop ex synth words 1)

/-! ## SHA-256 and SHA-1 (the cache key and the uuid5 task identifier)

Bytes are `Nat < 256`; 32-bit words are `Nat` reduced mod `2^32` at each
arithmetic step, exactly as the FIPS 180-4 algorithms specify. -/

def w32 : Nat := 4294967296

def rotr32 (x n : Nat) : Nat :=
  ((x >>> n) ||| (x <<< (32 - n))) % w32

def rotl32 (x n : Nat) : Nat :=
  ((x <<< n) ||| (x >>> (32 - n))) % w32

def xor32 (a b : Nat) : Nat := a ^^^ b

def and32 (a b : Nat) : Nat := a &&& b

def not32 (a : Nat) : Nat := a ^^^ (w32 - 1)

/-- Big-endian 8-byte length, appended by both paddings. -/
def lenBytes64 (bitLen : Nat) : List Nat :=
  [bitLen >>> 56 % 256, bitLen >>> 48 % 256, bitLen >>> 40 % 256,
   bitLen >>> 32 % 256, bitLen >>> 24 % 256, bitLen >>> 16 % 256,
   bitLen >>> 8 % 256, bitLen % 256]

/-- Merkle–Damgård padding shared by SHA-1 and SHA-256: append `0x80`,
zero-fill to 56 mod 64, append the 64-bit big-endian bit length. -/
def mdPad (msg : List Nat) : List Nat :=
  let padLen := (119 - msg.length % 64) % 64
  msg ++ 128 :: List.replicate padLen 0 ++ lenBytes64 (msg.length * 8)

/-- Split the padded message into big-endian 32-bit words. -/
def toWords32 : List Nat → List Nat
  | b0 :: b1 :: b2 :: b3 :: rest =>
    (((b0 * 256 + b1) * 256 + b2) * 256 + b3) :: toWords32 rest
  | _ => []

/-- Group a word list into 16-word blocks. -/
def toBlocks16 (ws : List Nat) : List (List Nat) :=
  if h : ws = [] then []
  else
    have : ws.length - 16 < ws.length := by
      cases ws with
      | nil => simp at h
      | cons a t => simp [Nat.sub_lt_succ, Nat.lt_succ_of_le, Nat.sub_le]
  ws.take 16 :: toBlocks16 (ws.drop 16)
termination_by ws.length
decreasing_by simpa [List.length_drop] using this

/-- The 64 SHA-256 round constants of FIPS 180-4 (decimal). -/
def sha256K : List Nat :=
  [1116352408, 1899447441, 3049323471, 3921009573, 961987163,
   1508970993, 2453635748, 2870763221, 3624381080, 310598401,
   607225278, 1426881987, 1925078388, 2162078206, 2614888103,
   3248222580, 3835390401, 4022224774, 264347078, 604807628,
   770255983, 1249150122, 1555081692, 1996064986, 2554220882,
   2821834349, 2952996808, 3210313671, 3336571891, 3584528711,
   113926993, 338241895, 666307205, 773529912, 1294757372,
   1396182291, 1695183700, 1986661051, 2177026350, 2456956037,
   2730485921, 2820302411, 3259730800, 3345764771, 3516065817,
   3600352804, 4094571909, 275423344, 430227734, 506948616,
   659060556, 883997877, 958139571, 1322822218, 1537002063,
   1747873779, 1955562222, 2024104815, 2227730452, 2361852424,
   2428436474, 2756734187, 3204031479, 3329325298]

/-- SHA-256 message schedule: extend 16 words to 64. -/
def sha256Schedule (m : List Nat) : List Nat :=
  (List.range 64).foldl
    (fun w t =>
      if t < 16 then w ++ [m.getD t 0]
      else
        let s0 := xor32 (xor32 (rotr32 (w.getD (t - 15) 0) 7)
          (rotr32 (w.getD (t - 15) 0) 18)) ((w.getD (t - 15) 0) >>> 3)
        let s1 := xor32 (xor32 (rotr32 (w.getD (t - 2) 0) 17)
          (rotr32 (w.getD (t - 2) 0) 19)) ((w.getD (t - 2) 0) >>> 10)
        w ++ [(w.getD (t - 16) 0 + s0 + w.getD (t - 7) 0 + s1) % w32])
    []

/-- One SHA-256 compression round. -/
def sha256Round (st : List Nat) (kw : Nat × Nat) : List Nat :=
  match st with
  | [a, b, c, d, e, f, g, h] =>
    let s1 := xor32 (xor32 (rotr32 e 6) (rotr32 e 11)) (rotr32 e 25)
    let ch := xor32 (and32 e f) (and32 (not32 e) g)
    let t1 := (h + s1 + ch + kw.1 + kw.2) % w32
    let s0 := xor32 (xor32 (rotr32 a 2) (rotr32 a 13)) (rotr32 a 22)
    let mj := xor32 (xor32 (and32 a b) (and32 a c)) (and32 b c)
    let t2 := (s0 + mj) % w32
    [(t1 + t2) % w32, a, b, c, (d + t1) % w32, e, f, g]
  | other => other

def sha256Compress (h : List Nat) (block : List Nat) : List Nat :=
  let w := sha256Schedule block
  let st := (sha256K.zip w).foldl sha256Round h
  (h.zip st).map fun p => (p.1 + p.2) % w32

def sha256Words (msg : List Nat) : List Nat :=
  (toBlocks16 (toWords32 (mdPad msg))).foldl sha256Compress
    [1779033703, 3144134277, 1013904242, 2773480762,
     1359893119, 2600822924, 528734635, 1541459225]

/-- Word list to big-endian bytes. -/
def wordsToBytes (ws : List Nat) : List Nat :=
  ws.flatMap fun x => [x >>> 24 % 256, x >>> 16 % 256, x >>> 8 % 256, x % 256]

def hexDigitOf (n : Nat) : Char :=
  if n < 10 then Char.ofNat (48 + n) else Char.ofNat (87 + n)

def bytesToHex (bs : List Nat) : String :=
  String.mk (bs.flatMap fun b => [hexDigitOf (b / 16), hexDigitOf (b % 16)])

/-- `hashlib.sha256(msg).hexdigest()`. -/
def sha256hex (msg : List Nat) : String :=
  bytesToHex (wordsToBytes (sha256Words msg))

/-- One SHA-1 round; the state carries the round index to select `f`/`k`. -/
def sha1Round (st : Nat × List Nat) (wt : Nat) : Nat × List Nat :=
  match st with
  | (t, [a, b, c, d, e]) =>
    let f :=
      if t < 20 then xor32 (and32 b c) (and32 (not32 b) d)
      else if t < 40 then xor32 (xor32 b c) d
      else if t < 60 then xor32 (xor32 (and32 b c) (and32 b d)) (and32 c d)
      else xor32 (xor32 b c) d
    let k :=
      if t < 20 then 1518500249
      else if t < 40 then 1859775393
      else if t < 60 then 2400959708
      else 3395469782
    (t + 1, [(rotl32 a 5 + f + e + k + wt) % w32, a, rotl32 b 30, c, d])
  | other => other

/-- SHA-1 message schedule: extend 16 words to 80. -/
def sha1Schedule (m : List Nat) : List Nat :=
  (List.range 80).foldl
    (fun w t =>
      if t < 16 then w ++ [m.getD t 0]
      else
        w ++ [rotl32 (xor32 (xor32 (w.getD (t - 3) 0) (w.getD (t - 8) 0))
          (xor32 (w.getD (t - 14) 0) (w.getD (t - 16) 0))) 1])
    []

def sha1Compress (h : List Nat) (block : List Nat) : List Nat :=
  let w := sha1Schedule block
  let st := (w.foldl sha1Round (0, h)).2
  (h.zip st).map fun p => (p.1 + p.2) % w32

def sha1Bytes (msg : List Nat) : List Nat :=
  wordsToBytes
    ((toBlocks16 (toWords32 (mdPad msg))).foldl sha1Compress
      [1732584193, 4023233417, 2562383102, 271733878, 3285377520])

/-! ## `uuid.uuid5(uuid.NAMESPACE_URL, cache_key)` -/

/-- The 16 bytes of `uuid.NAMESPACE_URL = 6ba7b811-9dad-11d1-80b4-00c04fd430c8`. -/
def namespaceURLBytes : List Nat :=
  [107, 167, 184, 17, 157, 173, 17, 209, 128, 180, 0, 192, 79, 212, 48, 200]

def utf8Bytes (s : String) : List Nat :=
  s.toUTF8.toList.map UInt8.toNat

/-- `uuid5`: SHA-1 of namespace bytes plus the UTF-8 name, truncated to 16
bytes, with the version nibble forced to 5 and the variant bits to 10;
serialized in the canonical lowercase hyphenated form. -/
def uuid5 (ns : List Nat) (name : String) : String :=
  let d := (sha1Bytes (ns ++ utf8Bytes name)).take 16
  let d := d.set 6 ((d.getD 6 0 &&& 15) ||| 80)
  let d := d.set 8 ((d.getD 8 0 &&& 63) ||| 128)
  String.mk (insertUuidHyphens (bytesToHex d).data)

/-! ## The cache key (`ProcessAudioAPIView.post` lines 114–135)

`hashlib`'s incremental interface satisfies
`digest(update(u₁)…update(uₙ)) = H(u₁ ‖ … ‖ uₙ)`; the hasher state is
therefore the list of absorbed bytes and `update` is append.  The view
absorbs the uploaded audio chunk by chunk and then the UTF-8 reference
text. -/

def cacheKey (chunks : List (List Nat)) (text : String) : String :=
  sha256hex (chunks.foldl (· ++ ·) [] ++ utf8Bytes text)

/-- `task_id = str(uuid.uuid5(uuid.NAMESPACE_URL, cache_key))`. -/
def taskIdOf (chunks : List (List Nat)) (text : String) : String :=
  uuid5 namespaceURLBytes (cacheKey chunks text)

/-! ## `_clean_text_words` (pronunciation_ai.py)

`text.lower()`, then `re.sub(r"[^\w\s]", " ", text)`, then `.split()`
(split on whitespace runs, no empty tokens — the comprehension's `if w`
filter is already implied).  `\w`/`\s`/`lower` are modelled on ASCII. -/

def isPyWordChar (c : Char) : Bool :=
  c.isAlphanum || c = '_'

def pySplitAux : List Char → List Char → List String
  | [], cur => if cur = [] then [] else [String.mk cur.reverse]
  | c :: rest, cur =>
    if c.isWhitespace then
      if cur = [] then pySplitAux rest []
      else String.mk cur.reverse :: pySplitAux rest []
    else pySplitAux rest (c :: cur)

def pySplit (l : List Char) : List String :=
  pySplitAux l []

def cleanTextWords (text : String) : List String :=
  let t := text.data.map Char.toLower
  let t := t.map fun c => if isPyWordChar c || c.isWhitespace then c else ' '
  pySplit t

/-! ## `difflib.SequenceMatcher(None, a, b)` on token lists

`find_bad_words` constructs the matcher with `isjunk=None` and the default
`autojunk=True`.  With `isjunk=None` the junk set `bjunk` is empty, so the
two junk-extension loops of `find_longest_match` never execute and the
non-junk extension loops reduce to plain equality extension; autojunk
removes "popular" elements (count exceeding `len(b)//100 + 1` when
`len(b) >= 200`) from the index `b2j` only. -/

/-- Autojunk popularity test on elements of `b`. -/
def bPopular (b : List String) (x : String) : Bool :=
  200 ≤ b.length && b.length / 100 + 1 < b.count x

/-- `b2j.get(x, [])`: the ascending indices of non-popular `x` in `b`. -/
def b2jList (b : List String) (x : String) : List Nat :=
  if bPopular b x then []
  else (List.range b.length).filter fun j => b.getD j "" = x

/-- The inner loop of `find_longest_match`: one row of the
longest-common-substring table.  `old` is the previous row (`j2len`, a
dict defaulting to `0`; Python's `j2lenget(j-1, 0)` at `j = 0` reads key
`-1`, never present, hence the `j = 0` guard), `newRow` accumulates
`newj2len`, and `best` is `(besti, bestj, bestsize)`.  `j < blo` is
`continue`, `j >= bhi` is `break` (the list is ascending).  In
`i - k + 1`/`j - k + 1` the chain length `k` never exceeds `i + 1` resp.
`j + 1`, so `Nat` subtraction is exact. -/
def innerLoop (blo bhi i : Nat) (old : Nat → Nat) :
    List Nat → (Nat → Nat) → Nat × Nat × Nat → (Nat → Nat) × (Nat × Nat × Nat)
  | [], newRow, best => (newRow, best)
  | j :: rest, newRow, best =>
    if j < blo then innerLoop blo bhi i old rest newRow best
    else if bhi ≤ j then (newRow, best)
    else
      let k := (if j = 0 then 0 else old (j - 1)) + 1
      let newRow' := fun x => if x = j then k else newRow x
      let best' := if best.2.2 < k then (i + 1 - k, j + 1 - k, k) else best
      innerLoop blo bhi i old rest newRow' best'

/-- The backward extension loop
`while besti > alo and bestj > blo and a[besti-1] == b[bestj-1]`,
structurally recursive on `besti` (each pass decrements it). -/
def extBack (a b : List String) (alo blo : Nat) :
    Nat → Nat → Nat → Nat × Nat × Nat
  | 0, bj, k => (0, bj, k)
  | bi + 1, bj, k =>
    if alo < bi + 1 ∧ blo < bj ∧ a.getD bi "" = b.getD (bj - 1) "" then
      extBack a b alo blo bi (bj - 1) (k + 1)
    else (bi + 1, bj, k)

/-- The forward extension loop
`while besti+bestsize < ahi and bestj+bestsize < bhi and
a[besti+bestsize] == b[bestj+bestsize]`, structurally recursive on a fuel
of `ahi - (besti + bestsize)` supplied at the call site: the guard demands
`besti + k < ahi` at every pass, so that fuel runs out exactly when the
guard is about to fail, and the two stopping conditions coincide. -/
def extFwd (a b : List String) (ahi bhi bi bj : Nat) : Nat → Nat → Nat
  | 0, k => k
  | fuel + 1, k =>
    if bi + k < ahi ∧ bj + k < bhi ∧ a.getD (bi + k) "" = b.getD (bj + k) "" then
      extFwd a b ahi bhi bi bj fuel (k + 1)
    else k

/-- The dynamic-programming sweep of `find_longest_match`: fold the rows
`i ∈ range(alo, ahi)` carrying `(j2len, (besti, bestj, bestsize))`, each
row starting from an empty `newj2len`. -/
def flmDP (a b : List String) (alo ahi blo bhi : Nat) : Nat × Nat × Nat :=
  ((List.range' alo (ahi - alo)).foldl
    (fun st i =>
      innerLoop blo bhi i st.1 (b2jList b (a.getD i "")) (fun _ => 0) st.2)
    (fun _ => 0, (alo, blo, 0))).2

/-- `SequenceMatcher.find_longest_match(alo, ahi, blo, bhi)` with
`isjunk=None`: dynamic-programming sweep, then equality extension
backward and forward (the junk-extension loops are no-ops for an empty
junk set and are omitted). -/
def findLongestMatch (a b : List String) (alo ahi blo bhi : Nat) :
    Nat × Nat × Nat :=
  let dp := flmDP a b alo ahi blo bhi
  let ext := extBack a b alo blo dp.1 dp.2.1 dp.2.2
  (ext.1, ext.2.1,
    extFwd a b ahi bhi ext.1 ext.2.1 (ahi - (ext.1 + ext.2.2)) ext.2.2)

/-- The recursive block collection of `get_matching_blocks`.  The Python
original drives an explicit LIFO queue and sorts the collected blocks at
the end; since every block found in `[alo, i)` precedes `(i, j, k)` which
precedes every block found in `[i+k, ahi)` (first components strictly
increase), the sorted queue traversal equals this in-order recursion.
The fuel decreases by one per call while `(ahi - alo) + (bhi - blo)`
shrinks by at least two, so the top-level fuel `la + lb + 1` never runs
out. -/
def blocksFuel (a b : List String) :
    Nat → Nat → Nat → Nat → Nat → List (Nat × Nat × Nat)
  | 0, _, _, _, _ => []
  | fuel + 1, alo, ahi, blo, bhi =>
    let m := findLongestMatch a b alo ahi blo bhi
    let i := m.1
    let j := m.2.1
    let k := m.2.2
    if k = 0 then []
    else
      (if alo < i ∧ blo < j then blocksFuel a b fuel alo i blo j else [])
        ++ (i, j, k) ::
          (if i + k < ahi ∧ j + k < bhi then
            blocksFuel a b fuel (i + k) ahi (j + k) bhi
          else [])

/-- One step of `get_matching_blocks`' adjacency merging: the running
state is `(i1, j1, k1, non_adjacent)`. -/
def mergeStep (st : Nat × Nat × Nat × List (Nat × Nat × Nat))
    (bl : Nat × Nat × Nat) : Nat × Nat × Nat × List (Nat × Nat × Nat) :=
  match st, bl with
  | (i1, j1, k1, acc), (i2, j2, k2) =>
    if i1 + k1 = i2 ∧ j1 + k1 = j2 then (i1, j1, k1 + k2, acc)
    else if k1 ≠ 0 then (i2, j2, k2, acc ++ [(i1, j1, k1)])
    else (i2, j2, k2, acc)

/-- `get_matching_blocks`: collect, merge adjacent blocks, append the
`(la, lb, 0)` sentinel. -/
def matchingBlocks (a b : List String) : List (Nat × Nat × Nat) :=
  let raw := blocksFuel a b (a.length + b.length + 1) 0 a.length 0 b.length
  let fin := raw.foldl mergeStep
    ((0, 0, 0, []) : Nat × Nat × Nat × List (Nat × Nat × Nat))
  (match fin with
    | (i1, j1, k1, acc) => if k1 ≠ 0 then acc ++ [(i1, j1, k1)] else acc)
    ++ [(a.length, b.length, 0)]

inductive OpTag where
  | replace
  | delete
  | insert
  | equal
  deriving DecidableEq

structure Opcode where
  tag : OpTag
  i1 : Nat
  i2 : Nat
  j1 : Nat
  j2 : Nat
  deriving DecidableEq

/-- One step of the `get_opcodes()` loop: the state is the running
`(i, j, answer)`. -/
def opcodeStep (st : Nat × Nat × List Opcode) (bl : Nat × Nat × Nat) :
    Nat × Nat × List Opcode :=
  match st, bl with
  | (i, j, ans), (ai, bj, size) =>
    let ans :=
      if i < ai ∧ j < bj then ans ++ [⟨.replace, i, ai, j, bj⟩]
      else if i < ai then ans ++ [⟨.delete, i, ai, j, bj⟩]
      else if j < bj then ans ++ [⟨.insert, i, ai, j, bj⟩]
      else ans
    let ans :=
      if size ≠ 0 then ans ++ [⟨.equal, ai, ai + size, bj, bj + size⟩]
      else ans
    (ai + size, bj + size, ans)

/-- `SequenceMatcher.get_opcodes()`. -/
def getOpcodes (a b : List String) : List Opcode :=
  ((matchingBlocks a b).foldl opcodeStep
    ((0, 0, []) : Nat × Nat × List Opcode)).2.2

/-! ## `find_bad_words` (pronunciation_ai.py) -/

/-- The contribution of one opcode to `bad_words`: the body of the
`for tag, i1, i2, j1, j2 in matcher.get_opcodes()` loop. -/
def flagOpcode (origWords recWords : List String) (op : Opcode) : List String :=
  match op.tag with
  | .replace =>
    (List.range' op.i1 (op.i2 - op.i1)).foldl
      (fun acc i =>
        if i - op.i1 < op.j2 - op.j1 then
          let origWord := origWords.getD i ""
          let recWord := recWords.getD (op.j1 + (i - op.i1)) ""
          if origWord ≠ recWord then acc ++ [origWord] else acc
        else acc ++ [origWords.getD i ""])
      []
  | .delete =>
    (List.range' op.i1 (op.i2 - op.i1)).foldl
      (fun acc i => acc ++ [origWords.getD i ""]) []
  | _ => []

/-- The flagged (pre-filter) `bad_words` list. -/
def rawBadWords (origWords recWords : List String) (ops : List Opcode) :
    List String :=
  ops.foldl (fun acc op => acc ++ flagOpcode origWords recWords op) []

/-- The closed stopword set `simple_words`. -/
def stopWords : List String :=
  ["a", "an", "the", "and", "or", "in", "on", "at", "to", "of", "is", "are",
   "was", "were"]

/-- The final filter/dedup loop of `find_bad_words` (`seen` is the set). -/
def dedupFilter (seen : List String) : List String → List String
  | [] => []
  | w :: ws =>
    if stopWords.contains w || w.length ≤ 2 then dedupFilter seen ws
    else if seen.contains w then dedupFilter seen ws
    else w :: dedupFilter (w :: seen) ws

/-- `find_bad_words(reference_text, recognized_text)`. -/
def find_bad_words (referenceText recognizedText : String) : List String :=
  let origWords := cleanTextWords referenceText
  let recWords := cleanTextWords recognizedText
  let ops := getOpcodes origWords recWords
  dedupFilter [] (rawBadWords origWords recWords ops)

/-! # Theorems -/

/-! ## C5 groundwork: every generated clip filename passes `_FILENAME_RE` -/

theorem digitChar_allowed (n : Nat) (h : n < 10) :
    isAllowedFnChar (Nat.digitChar n) = true := by
  interval_cases n <;> decide

theorem toDigitsCore_allowed (fuel : Nat) :
    ∀ (n : Nat) (acc : List Char),
      (∀ c ∈ acc, isAllowedFnChar c = true) →
      ∀ c ∈ Nat.toDigitsCore 10 fuel n acc, isAllowedFnChar c = true := by
  induction fuel with
  | zero =>
    intro n acc hacc c hc
    simpa [Nat.toDigitsCore] using hacc c hc
  | succ f ih =>
    intro n acc hacc c hc
    rw [Nat.toDigitsCore] at hc
    split at hc
    next =>
      rcases List.mem_cons.mp hc with hc | hc
      · subst hc
        exact digitChar_allowed _ (Nat.mod_lt _ (by norm_num))
      · exact hacc c hc
    next =>
      refine ih _ _ ?_ c hc
      intro d hd
      rcases List.mem_cons.mp hd with hd | hd
      · subst hd
        exact digitChar_allowed _ (Nat.mod_lt _ (by norm_num))
      · exact hacc d hd

theorem repr_data_allowed (n : Nat) :
    ∀ c ∈ (Nat.repr n).data, isAllowedFnChar c = true := by
  intro c hc
  exact toDigitsCore_allowed (n + 1) n [] (by simp) c hc

theorem collapseUnderscoreRuns_subset :
    ∀ l, ∀ c ∈ collapseUnderscoreRuns l, c ∈ l := by
  intro l
  induction l using collapseUnderscoreRuns.induct with
  | case1 => simp [collapseUnderscoreRuns]
  | case2 c => simp [collapseUnderscoreRuns]
  | case3 a b rest h ih =>
    rw [collapseUnderscoreRuns, if_pos h]
    intro c hc
    exact List.mem_cons_of_mem _ (ih c hc)
  | case4 a b rest h ih =>
    rw [collapseUnderscoreRuns, if_neg h]
    intro c hc
    rcases List.mem_cons.mp hc with hc | hc
    · subst hc
      exact List.mem_cons_self _ _
    · exact List.mem_cons_of_mem _ (ih c hc)

theorem stripUnderscores_subset (l : List Char) :
    ∀ c ∈ stripUnderscores l, c ∈ l := by
  intro c hc
  unfold stripUnderscores at hc
  rw [List.mem_reverse] at hc
  have h1 := (List.dropWhile_sublist (l := (l.dropWhile (· = '_')).reverse)
    (p := (· = '_'))).mem hc
  rw [List.mem_reverse] at h1
  exact (List.dropWhile_sublist (p := (· = '_'))).mem h1

theorem safeFilenamePart_allowed (w : String) :
    ∀ c ∈ (safeFilenamePart w).data, isAllowedFnChar c = true := by
  intro c hc
  unfold safeFilenamePart at hc
  have hc' := List.take_subset 40 _ hc
  by_cases hemp :
      stripUnderscores (collapseUnderscoreRuns (replaceDisallowed w.data)) = []
  · rw [if_pos hemp] at hc'
    have hw : ("word".data) = ['w', 'o', 'r', 'd'] := rfl
    rw [hw] at hc'
    fin_cases hc' <;> decide
  · rw [if_neg hemp] at hc'
    have h2 := stripUnderscores_subset _ c hc'
    have h3 := collapseUnderscoreRuns_subset _ c h2
    unfold replaceDisallowed at h3
    rw [List.mem_map] at h3
    obtain ⟨d, _, hd⟩ := h3
    by_cases hall : isAllowedFnChar d = true
    · rw [if_pos hall] at hd
      rwa [hd] at hall
    · rw [if_neg hall] at hd
      rw [← hd]
      decide

/-- C5: the round-trip between the clip generator and the clip file
server's syntactic gate.  For every word and every (1-based or not) index,
the filename the generator builds — decimal index, underscore, sanitized
word component, `.mp3` suffix — fully matches `_FILENAME_RE`. -/
theorem generated_clip_filenames_accepted (i : Nat) (w : String) :
    filenameOk (clipFilename i w) = true := by
  have hdata : (clipFilename i w).data =
      ((Nat.repr i).data ++ '_' :: (safeFilenamePart w).data)
        ++ ['.', 'm', 'p', '3'] := by
    simp [clipFilename, String.data_append]
  simp only [filenameOk, Bool.and_eq_true, decide_eq_true_eq]
  rw [hdata]
  refine ⟨⟨?_, ?_⟩, ?_⟩
  · simp only [List.length_append, List.length_cons, List.length_nil]
    omega
  · refine List.drop_left' ?_
    simp only [List.length_append, List.length_cons, List.length_nil]
    omega
  · rw [List.all_append, Bool.and_eq_true, List.all_append, Bool.and_eq_true]
    refine ⟨⟨?_, ?_⟩, by decide⟩
    · rw [List.all_eq_true]
      intro c hc
      exact repr_data_allowed i c hc
    · rw [List.all_eq_true]
      intro c hc
      rcases List.mem_cons.mp hc with hc | hc
      · subst hc; decide
      · exact safeFilenamePart_allowed w c hc

/-! ## C1: the clip file server's gates -/

/-- C1: `serve` performs no filesystem access unless the canonical-UUID
gate, the filename-pattern gate, and the post-resolution containment gate
all pass: when any gate fails the result is the single `'invalid file
name'` rejection, identical for every filesystem state (in particular for
`task_id = "../../etc"` and for the filenames `"../secret.mp3"` and
`"x.mp3.sh"` under any task id); when all gates pass and the resolved file
is absent the result is the distinct `'file not found'` outcome. -/
theorem serve_gates (root : List String) (fs fs' : List String → Bool)
    (tid fn : String) :
    (gatesPass root tid fn = false →
      serve root fs tid fn = .invalidName ∧
        serve root fs tid fn = serve root fs' tid fn)
    ∧ (gatesPass root tid fn = true → fs (clipPath root tid fn) = false →
        serve root fs tid fn = .notFound)
    ∧ ServeResult.notFound ≠ ServeResult.invalidName
    ∧ serve root fs "../../etc" fn = .invalidName
    ∧ serve root fs tid "../secret.mp3" = .invalidName
    ∧ serve root fs tid "x.mp3.sh" = .invalidName := by
  have huuid : uuidGate "../../etc" = false := by decide
  have hsec : filenameOk "../secret.mp3" = false := by decide
  have hsh : filenameOk "x.mp3.sh" = false := by decide
  refine ⟨?_, ?_, by decide, ?_, ?_, ?_⟩
  · intro hg
    by_cases h1 : uuidGate tid
    · by_cases h2 : fn = ""
      · constructor
        · simp [serve, h2]
        · simp [serve, h2]
      · by_cases h3 : filenameOk fn
        · have h4 : (clipBase root tid).isPrefixOf (clipPath root tid fn) = false := by
            by_contra hcon
            rw [Bool.not_eq_false] at hcon
            rw [gatesPass, h1] at hg
            simp [h2, h3, hcon] at hg
          constructor
          · simp [serve, h1, h2, h3, h4]
          · simp [serve, h1, h2, h3, h4]
        · constructor
          · simp [serve, h1, h2, h3]
          · simp [serve, h1, h2, h3]
    · rw [Bool.not_eq_true] at h1
      constructor
      · simp [serve, h1]
      · simp [serve, h1]
  · intro hg hfs
    rw [gatesPass, Bool.and_eq_true, Bool.and_eq_true] at hg
    obtain ⟨⟨h1, h2⟩, h3⟩ := hg
    simp only [Bool.not_eq_eq_eq_not, Bool.not_true, Bool.or_eq_false_iff] at h2
    simp [serve, h1, h2.1, h2.2, h3, hfs]
  · simp [serve, huuid]
  · by_cases h1 : uuidGate tid
    · simp [serve, h1, hsec]
    · rw [Bool.not_eq_true] at h1
      simp [serve, h1]
  · by_cases h1 : uuidGate tid
    · simp [serve, h1, hsh]
    · rw [Bool.not_eq_true] at h1
      simp [serve, h1]

/-- C1 witness: a concrete rejected traversal attempt and a concrete
all-gates-pass request whose file is absent. -/
theorem serve_gates_witness :
    serve ["m"] (fun _ => false) "../../etc" "a.mp3" = .invalidName
    ∧ serve ["m"] (fun _ => false)
        "00000000-0000-0000-0000-000000000000" "1_word.mp3" = .notFound := by
  constructor
  · exact ((serve_gates ["m"] (fun _ => false) (fun _ => true)
      "../../etc" "a.mp3").1 (by decide)).1
  · exact (serve_gates ["m"] (fun _ => false) (fun _ => true)
      "00000000-0000-0000-0000-000000000000" "1_word.mp3").2.1
      (by decide) rfl

/-! ## C2: the task identifier is a pure function of (audio bytes, text) -/

/-- C2: determinism and content-addressing of the cache identity.  Two
requests whose audio payloads concatenate to the same byte string — however
differently chunked by the upload transport — and whose reference texts are
equal produce the same SHA-256 cache key and hence the same
`uuid5(NAMESPACE_URL, ·)` task identifier; being pure functions of the
bytes and text, repeated calls and process restarts cannot change them. -/
theorem cache_key_deterministic (chunks₁ chunks₂ : List (List Nat))
    (text₁ text₂ : String)
    (hbytes : chunks₁.foldl (· ++ ·) [] = chunks₂.foldl (· ++ ·) [])
    (htext : text₁ = text₂) :
    cacheKey chunks₁ text₁ = cacheKey chunks₂ text₂
    ∧ taskIdOf chunks₁ text₁ = taskIdOf chunks₂ text₂ := by
  have hkey : cacheKey chunks₁ text₁ = cacheKey chunks₂ text₂ := by
    unfold cacheKey
    rw [hbytes, htext]
  exact ⟨hkey, by unfold taskIdOf; rw [hkey]⟩

/-- C2 witness: the same bytes `[104, 105]` arriving in one chunk or two,
with the same text, give identical cache keys and task identifiers. -/
theorem cache_key_deterministic_witness :
    cacheKey [[104, 105]] "hello" = cacheKey [[104], [105]] "hello"
    ∧ taskIdOf [[104, 105]] "hello" = taskIdOf [[104], [105]] "hello" :=
  cache_key_deterministic [[104, 105]] [[104], [105]] "hello" "hello"
    (by decide) rfl

/-! ## C7: what the processing endpoint actually rejects -/

/-- C7 counterexample: a submission carrying *both* `text` and `text_id`,
with an audio filename that does not end in `.wav`, is not rejected by the
endpoint's pre-analysis validation — the view never reads `text_id` or the
upload's filename (the serializer that would is never invoked), so the
claim's both-supplied and `.wav`-suffix rejections do not happen. -/
theorem processValidate_counterexample :
    processValidate "key" "folder"
      ⟨some "hello world", some 1, some "speech.mp3", none⟩ = none := by
  decide

/-- C7 amended: the endpoint rejects before analysis exactly when the
reference text is missing or blank, the audio payload is missing, the
enable-synthesis value is not a recognized boolean token, or synthesis is
requested while either provider credential is blank; `text_id` and the
audio filename are never inspected. -/
theorem processValidate_characterization (apiKey folderId : String)
    (r : ProcReq) :
    (processValidate apiKey folderId r).isSome = true ↔
      (pyStripWs (r.text.getD "").data = []
        ∨ r.audioName = none
        ∨ parseBool r.enableTts false = .error ()
        ∨ (parseBool r.enableTts false = .ok true
            ∧ (pyStripWs apiKey.data = [] ∨ pyStripWs folderId.data = []))) := by
  unfold processValidate
  by_cases h1 : pyStripWs (r.text.getD "").data = []
  · simp [h1]
  · by_cases h2 : r.audioName = none
    · simp [h1, h2]
    · rcases hb : parseBool r.enableTts false with e | b
      · simp [h1, h2, hb]
      · cases b
        · simp [h1, h2, hb]
        · by_cases h3 : pyStripWs apiKey.data = [] ∨ pyStripWs folderId.data = []
          · rcases h3 with h3 | h3 <;> simp [h1, h2, hb, h3]
          · push_neg at h3
            simp [h1, h2, hb, h3.1, h3.2]

/-- C7 amended witness: a blank-text request is rejected while a complete
well-formed request is not. -/
theorem processValidate_characterization_witness :
    (processValidate "key" "folder" ⟨some "  ", none, some "a.wav", some "true"⟩).isSome
      = true
    ∧ (processValidate "key" "folder"
        ⟨some "hi there", none, some "a.wav", some "true"⟩).isSome = false := by
  constructor
  · exact (processValidate_characterization "key" "folder"
      ⟨some "  ", none, some "a.wav", some "true"⟩).mpr (Or.inl (by decide))
  · have h := processValidate_characterization "key" "folder"
      ⟨some "hi there", none, some "a.wav", some "true"⟩
    rcases hb : (processValidate "key" "folder"
        ⟨some "hi there", none, some "a.wav", some "true"⟩).isSome with _ | _
    · rfl
    · exfalso
      rcases h.mp hb with hc | hc | hc | hc
      · exact absurd hc (by decide)
      · exact absurd hc (by decide)
      · exact absurd hc (by decide)
      · exact absurd hc.2 (by decide)

/-! ## C6: a corrupt cache record is returned empty, not recomputed -/

/-- C6 counterexample: when `analysis.json` exists but is unparseable, the
response carries the empty analysis — not the freshly computed one — and
nothing is written back; the recompute branch is never taken. -/
theorem cacheBranch_corrupt_counterexample :
    cacheBranch true none (.ok ⟨"hello world", ["hello"]⟩)
      = (.ok ⟨"", []⟩, false)
    ∧ (Analysis.mk "" [] ≠ Analysis.mk "hello world" ["hello"]) := by
  constructor
  · rfl
  · decide

/-- C6 amended: an existing-but-corrupt record is treated as an empty
analysis rather than a fatal error — the request succeeds with empty
recognized text and no mismatched words, independent of what recomputation
would have produced, and the record is not overwritten; recomputation (and
the write-back) happens only when the record file does not exist. -/
theorem cacheBranch_characterization (compute compute' : Except Unit Analysis)
    (a : Analysis) :
    cacheBranch true none compute = (.ok ⟨"", []⟩, false)
    ∧ cacheBranch true none compute = cacheBranch true none compute'
    ∧ cacheBranch false none (.ok a) = (.ok a, true)
    ∧ cacheBranch true (some a) compute = (.ok a, false) := by
  exact ⟨rfl, rfl, rfl, rfl⟩

/-! ## C9: the empty-transcript failure path -/

/-- C9: when recognition produces an empty transcript,
`analyze_pronunciation` raises the `'no speech recognized'` error rather
than returning, it does so identically for every mismatch detector (the
detector is never invoked on that path), and no successful result ever
carries an empty recognized text. -/
theorem analyze_empty_transcript (det det' : String → String → List String)
    (ref : String) :
    analyzeWith det "" ref = .error "Could not recognize any speech from the audio."
    ∧ analyzeWith det "" ref = analyzeWith det' "" ref
    ∧ (∀ recognized a, analyzeWith det recognized ref = .ok a →
        a.recognizedText ≠ "") := by
  refine ⟨rfl, rfl, ?_⟩
  intro recognized a hok
  unfold analyzeWith at hok
  by_cases h : recognized = ""
  · rw [if_pos h] at hok
    cases hok
  · rw [if_neg h] at hok
    cases hok
    exact h

/-- C9 witness: a nonempty transcript passes through with its own text. -/
theorem analyze_empty_transcript_witness :
    (analyzeWith find_bad_words "" "cat").isOk = false
    ∧ (Analysis.mk "cat" (find_bad_words "cat" "cat")).recognizedText ≠ "" := by
  constructor
  · rw [(analyze_empty_transcript find_bad_words find_bad_words "cat").1]
    rfl
  · exact (analyze_empty_transcript find_bad_words find_bad_words "cat").2.2
      "cat" ⟨"cat", find_bad_words "cat" "cat"⟩ rfl

/-! ## C8: the clip cap -/

/-- C8 counterexample: the truncation guard is `if max_clips and
max_clips > 0`, so a cap of `0` truncates nothing — the generator happily
returns one clip, more than the cap allows, and calls synthesis for it. -/
theorem generateCorrectionClips_cap_counterexample :
    generateCorrectionClips (fun _ => false) (fun _ => true) ["hello"]
      "key" "folder" 0 = .ok [("hello", "1_hello.mp3")]
    ∧ ¬ (([("hello", "1_hello.mp3")] : List (String × String)).length
          ≤ (0 : Int).toNat) := by
  constructor
  · rfl
  · decide

theorem genClipsLoop_length (ex synth : String → Bool) :
    ∀ (ws : List String) (i : Nat),
      (genClipsLoop ex synth ws i).length ≤ ws.length := by
  intro ws
  induction ws with
  | nil => intro i; simp [genClipsLoop]
  | cons w ws ih =>
    intro i
    rw [genClipsLoop]
    by_cases hex : ex (clipFilename i w)
    · rw [if_neg (by simp [hex])]
      simpa using Nat.succ_le_succ (ih (i + 1))
    · rw [if_pos (by simp [hex])]
      by_cases hs : synth w
      · rw [if_pos hs]
        simpa using Nat.succ_le_succ (ih (i + 1))
      · rw [if_neg hs]
        exact le_trans (ih (i + 1)) (by simp)

theorem genClipsLoop_mem (ex synth : String → Bool) :
    ∀ (ws : List String) (i : Nat) (p : String × String),
      p ∈ genClipsLoop ex synth ws i → p.1 ∈ ws := by
  intro ws
  induction ws with
  | nil => intro i p hp; simp [genClipsLoop] at hp
  | cons w ws ih =>
    intro i p hp
    rw [genClipsLoop] at hp
    by_cases hex : ex (clipFilename i w)
    · rw [if_neg (by simp [hex])] at hp
      rcases List.mem_cons.mp hp with hp | hp
      · subst hp; exact List.mem_cons_self _ _
      · exact List.mem_cons_of_mem _ (ih (i + 1) p hp)
    · rw [if_pos (by simp [hex])] at hp
      by_cases hs : synth w
      · rw [if_pos hs] at hp
        rcases List.mem_cons.mp hp with hp | hp
        · subst hp; exact List.mem_cons_self _ _
        · exact List.mem_cons_of_mem _ (ih (i + 1) p hp)
      · rw [if_neg hs] at hp
        exact List.mem_cons_of_mem _ (ih (i + 1) p hp)

theorem genClipsLoop_congr (ex synth synth' : String → Bool) :
    ∀ (ws : List String) (i : Nat),
      (∀ w ∈ ws, synth w = synth' w) →
      genClipsLoop ex synth ws i = genClipsLoop ex synth' ws i := by
  intro ws
  induction ws with
  | nil => intro i _; rfl
  | cons w ws ih =>
    intro i hagree
    rw [genClipsLoop, genClipsLoop]
    have htail := ih (i + 1) fun x hx => hagree x (List.mem_cons_of_mem _ hx)
    rw [hagree w (List.mem_cons_self _ _), htail]

/-- C8 amended: for every *strictly positive* cap, the generator truncates
the word list to its first `maxClips` elements before consulting the
synthesis provider — the output has at most `maxClips` entries, every
returned word is among the first `maxClips` input words, and the result is
unchanged under any synthesis oracle that agrees on those first `maxClips`
words (no synthesis call is made beyond the cap). -/
theorem generateCorrectionClips_cap (ex synth synth' : String → Bool)
    (words : List String) (apiKey folderId : String) (maxClips : Int)
    (hpos : 0 < maxClips)
    (hagree : ∀ w ∈ words.take maxClips.toNat, synth w = synth' w) :
    (∀ l, generateCorrectionClips ex synth words apiKey folderId maxClips = .ok l →
      l.length ≤ maxClips.toNat ∧ ∀ p ∈ l, p.1 ∈ words.take maxClips.toNat)
    ∧ generateCorrectionClips ex synth words apiKey folderId maxClips
        = generateCorrectionClips ex synth' words apiKey folderId maxClips := by
  constructor
  · intro l hl
    unfold generateCorrectionClips at hl
    by_cases hc : apiKey = "" || folderId = ""
    · rw [if_pos hc] at hl
      cases hl
    · rw [if_neg hc, if_pos hpos] at hl
      cases hl
      constructor
      · exact le_trans (genClipsLoop_length ex synth _ 1)
          (by simp [List.length_take_le])
      · intro p hp
        exact genClipsLoop_mem ex synth _ 1 p hp
  · unfold generateCorrectionClips
    by_cases hc : apiKey = "" || folderId = ""
    · rw [if_pos hc, if_pos hc]
    · rw [if_neg hc, if_neg hc, if_pos hpos]
      exact congrArg Except.ok (genClipsLoop_congr ex synth synth' _ 1 hagree)

/-- C8 amended witness: cap `1` on a two-word list yields at most one clip,
drawn from the first word, under two oracles agreeing on that word. -/
theorem generateCorrectionClips_cap_witness :
    (∀ l, generateCorrectionClips (fun _ => false) (fun _ => true)
        ["alpha", "beta"] "key" "folder" 1 = .ok l →
      l.length ≤ (1 : Int).toNat ∧ ∀ p ∈ l, p.1 ∈ ["alpha", "beta"].take (1 : Int).toNat)
    ∧ generateCorrectionClips (fun _ => false) (fun _ => true)
        ["alpha", "beta"] "key" "folder" 1
      = generateCorrectionClips (fun _ => false) (fun w => w = "alpha")
        ["alpha", "beta"] "key" "folder" 1 :=
  generateCorrectionClips_cap (fun _ => false) (fun _ => true)
    (fun w => w = "alpha") ["alpha", "beta"] "key" "folder" 1
    (by decide) (by decide)

/-! ## C4: the flagging rule over opcode runs -/

theorem foldl_acc_append {α β : Type} (g : α → List β)
    (step : List β → α → List β)
    (hstep : ∀ acc x, step acc x = acc ++ g x) :
    ∀ (l : List α) (acc : List β), l.foldl step acc = acc ++ l.flatMap g := by
  intro l
  induction l with
  | nil => intro acc; simp
  | cons x xs ih =>
    intro acc
    rw [List.foldl_cons, hstep, ih, List.flatMap_cons, List.append_assoc]

/-- The flagging rule exactly as the specification words it: in a
`replace` run, pair reference and recognized tokens positionally within
the overlapping length; a paired reference token is flagged iff it differs
from its partner; reference tokens beyond the recognized run's length are
flagged unconditionally; every token of a `delete` run is flagged;
`insert` and `equal` runs contribute nothing. -/
def specFlagRun (origWords recWords : List String) (op : Opcode) :
    List String :=
  match op.tag with
  | .replace =>
    (List.range' op.i1 (op.i2 - op.i1)).flatMap fun i =>
      if i - op.i1 < op.j2 - op.j1 then
        if origWords.getD i "" ≠ recWords.getD (op.j1 + (i - op.i1)) "" then
          [origWords.getD i ""]
        else []
      else [origWords.getD i ""]
  | .delete => (List.range' op.i1 (op.i2 - op.i1)).map fun i => origWords.getD i ""
  | .insert => []
  | .equal => []

theorem flagOpcode_eq_specFlagRun (origWords recWords : List String)
    (op : Opcode) :
    flagOpcode origWords recWords op = specFlagRun origWords recWords op := by
  obtain ⟨tag, i1, i2, j1, j2⟩ := op
  cases tag
  case replace =>
    simp only [flagOpcode, specFlagRun]
    rw [foldl_acc_append
      (fun i =>
        if i - i1 < j2 - j1 then
          if origWords.getD i "" ≠ recWords.getD (j1 + (i - i1)) "" then
            [origWords.getD i ""]
          else []
        else [origWords.getD i ""]) _ ?hstep, List.nil_append]
    case hstep =>
      intro acc i
      by_cases h1 : i - i1 < j2 - j1
      · by_cases h2 : origWords.getD i "" = recWords.getD (j1 + (i - i1)) ""
        all_goals
          simp only [List.getD_eq_getElem?_getD] at h2
          simp [h1, h2]
      · simp [h1]
  case delete =>
    simp only [flagOpcode, specFlagRun]
    rw [foldl_acc_append (fun i => [origWords.getD i ""]) _
      (fun acc i => rfl), List.nil_append]
    exact Eq.symm (List.map_eq_flatMap _ _)
  case insert => rfl
  case equal => rfl

/-- C4: over the opcode runs the diff produces, the mismatch detector's
flagged-word list is exactly the specification's rule applied run by run:
positional pairing with flag-iff-different inside the overlap of a
`replace` run, unconditional flags past the overlap and throughout
`delete` runs, and nothing from `insert` or `equal` runs. -/
theorem find_bad_words_flagging_rule (origWords recWords : List String) :
    rawBadWords origWords recWords (getOpcodes origWords recWords)
      = (getOpcodes origWords recWords).flatMap
          (specFlagRun origWords recWords) := by
  rw [rawBadWords,
    foldl_acc_append (specFlagRun origWords recWords) _
      (fun acc op => by rw [flagOpcode_eq_specFlagRun]),
    List.nil_append]

/-! ## C3 groundwork: the filter/dedup loop -/

/-- Index of the first occurrence of `w` (length of the list when absent);
used to state the first-occurrence ordering invariant. -/
def firstIdx : List String → String → Nat
  | [], _ => 0
  | x :: xs, w => if x = w then 0 else firstIdx xs w + 1

theorem firstIdx_cons_self (x : String) (xs : List String) :
    firstIdx (x :: xs) x = 0 := by
  simp [firstIdx]

theorem firstIdx_cons_ne (x w : String) (xs : List String) (h : x ≠ w) :
    firstIdx (x :: xs) w = firstIdx xs w + 1 := by
  simp [firstIdx, h]

theorem dedupFilter_mem :
    ∀ (l seen : List String) (w : String), w ∈ dedupFilter seen l →
      w ∈ l ∧ stopWords.contains w = false ∧ 2 < w.length ∧ w ∉ seen := by
  intro l
  induction l with
  | nil =>
    intro seen w hw
    simp [dedupFilter] at hw
  | cons x xs ih =>
    intro seen w hw
    rw [dedupFilter] at hw
    by_cases h1 : (stopWords.contains x || x.length ≤ 2 : Bool)
    · rw [if_pos h1] at hw
      obtain ⟨hmem, hrest⟩ := ih seen w hw
      exact ⟨List.mem_cons_of_mem _ hmem, hrest⟩
    · rw [if_neg h1] at hw
      by_cases h2 : (seen.contains x : Bool)
      · rw [if_pos h2] at hw
        obtain ⟨hmem, hrest⟩ := ih seen w hw
        exact ⟨List.mem_cons_of_mem _ hmem, hrest⟩
      · rw [if_neg h2] at hw
        rcases List.mem_cons.mp hw with hw | hw
        · subst hw
          simp only [Bool.or_eq_true, not_or, Bool.not_eq_true] at h1
          refine ⟨List.mem_cons_self _ _, h1.1, ?_, ?_⟩
          · have h3 := h1.2
            simp only [decide_eq_false_iff_not, not_le] at h3
            exact h3
          · intro hcon
            exact h2 (List.elem_eq_true_of_mem hcon)
        · obtain ⟨hmem, hstop, hlen, hseen⟩ := ih (x :: seen) w hw
          exact ⟨List.mem_cons_of_mem _ hmem, hstop, hlen,
            fun hc => hseen (List.mem_cons_of_mem _ hc)⟩

theorem dedupFilter_nodup :
    ∀ (l seen : List String), (dedupFilter seen l).Nodup := by
  intro l
  induction l with
  | nil => intro seen; simp [dedupFilter]
  | cons x xs ih =>
    intro seen
    rw [dedupFilter]
    by_cases h1 : (stopWords.contains x || x.length ≤ 2 : Bool)
    · rw [if_pos h1]; exact ih seen
    · rw [if_neg h1]
      by_cases h2 : (seen.contains x : Bool)
      · rw [if_pos h2]; exact ih seen
      · rw [if_neg h2]
        refine List.nodup_cons.mpr ⟨?_, ih (x :: seen)⟩
        intro hcon
        exact (dedupFilter_mem xs (x :: seen) x hcon).2.2.2
          (List.mem_cons_self _ _)

/-- A word that is a stopword or short never equals an element of the
filtered output. -/
theorem dedupFilter_ne_of_bad (x : String)
    (h1 : stopWords.contains x = true ∨ x.length ≤ 2) (seen xs : List String) :
    ∀ z ∈ dedupFilter seen xs, x ≠ z := by
  intro z hz hx
  obtain ⟨_, hstop, hlen, _⟩ := dedupFilter_mem xs seen z hz
  subst hx
  rcases h1 with h | h
  · rw [hstop] at h; cases h
  · omega

/-- A word already seen never equals an element of the filtered output. -/
theorem dedupFilter_ne_of_seen (x : String) (seen xs : List String)
    (h : x ∈ seen) : ∀ z ∈ dedupFilter seen xs, x ≠ z := by
  intro z hz hx
  obtain ⟨_, _, _, hseen⟩ := dedupFilter_mem xs seen z hz
  subst hx
  exact hseen h

theorem dedupFilter_pairwise :
    ∀ (l seen : List String),
      (dedupFilter seen l).Pairwise fun u v => firstIdx l u < firstIdx l v := by
  intro l
  induction l with
  | nil => intro seen; simp [dedupFilter]
  | cons x xs ih =>
    intro seen
    rw [dedupFilter]
    by_cases h1 : (stopWords.contains x || x.length ≤ 2 : Bool)
    · rw [if_pos h1]
      have h1' : stopWords.contains x = true ∨ x.length ≤ 2 := by
        rcases Bool.or_eq_true _ _ |>.mp h1 with h | h
        · exact Or.inl h
        · exact Or.inr (by simpa using h)
      refine (ih seen).imp_of_mem ?_
      intro u v hu hv huv
      rw [firstIdx_cons_ne _ _ _ (dedupFilter_ne_of_bad x h1' seen xs u hu),
        firstIdx_cons_ne _ _ _ (dedupFilter_ne_of_bad x h1' seen xs v hv)]
      omega
    · rw [if_neg h1]
      by_cases h2 : (seen.contains x : Bool)
      · rw [if_pos h2]
        have hx : x ∈ seen := List.mem_of_elem_eq_true h2
        refine (ih seen).imp_of_mem ?_
        intro u v hu hv huv
        rw [firstIdx_cons_ne _ _ _ (dedupFilter_ne_of_seen x seen xs hx u hu),
          firstIdx_cons_ne _ _ _ (dedupFilter_ne_of_seen x seen xs hx v hv)]
        omega
      · rw [if_neg h2]
        have hxmem : x ∈ x :: seen := List.mem_cons_self _ _
        refine List.pairwise_cons.mpr ⟨?_, ?_⟩
        · intro v hv
          rw [firstIdx_cons_self,
            firstIdx_cons_ne _ _ _ (dedupFilter_ne_of_seen x _ xs hxmem v hv)]
          omega
        · refine (ih (x :: seen)).imp_of_mem ?_
          intro u v hu hv huv
          rw [firstIdx_cons_ne _ _ _ (dedupFilter_ne_of_seen x _ xs hxmem u hu),
            firstIdx_cons_ne _ _ _ (dedupFilter_ne_of_seen x _ xs hxmem v hv)]
          omega

/-! ## C3 groundwork: index bounds through the matcher -/

/-- Invariant of a `j2len` row after processing rows `[alo, upto)`: chain
lengths are bounded by the number of processed rows and, when positive, by
the column's offset past `blo`. -/
def RowBound (alo blo upto : Nat) (row : Nat → Nat) : Prop :=
  ∀ j, row j + alo ≤ upto ∧ (0 < row j → row j + blo ≤ j + 1)

/-- Invariant of `(besti, bestj, bestsize)`: the match stays inside
`[alo, ahi) × [blo, bhi)`. -/
def BestBound (alo ahi blo bhi : Nat) (best : Nat × Nat × Nat) : Prop :=
  alo ≤ best.1 ∧ blo ≤ best.2.1
    ∧ best.1 + best.2.2 ≤ ahi ∧ best.2.1 + best.2.2 ≤ bhi

theorem bestBound_mk (alo ahi blo bhi x y z : Nat)
    (h1 : alo ≤ x) (h2 : blo ≤ y) (h3 : x + z ≤ ahi) (h4 : y + z ≤ bhi) :
    BestBound alo ahi blo bhi (x, y, z) := ⟨h1, h2, h3, h4⟩

theorem bestBound_out (alo ahi blo bhi x y z : Nat)
    (h : BestBound alo ahi blo bhi (x, y, z)) :
    alo ≤ x ∧ blo ≤ y ∧ x + z ≤ ahi ∧ y + z ≤ bhi := h

theorem innerLoop_bound (alo ahi blo bhi i : Nat) (old : Nat → Nat)
    (hrow : RowBound alo blo i old) (hi1 : alo ≤ i) (hi2 : i < ahi) :
    ∀ (cols : List Nat) (newRow : Nat → Nat) (best : Nat × Nat × Nat),
      RowBound alo blo (i + 1) newRow → BestBound alo ahi blo bhi best →
      RowBound alo blo (i + 1) (innerLoop blo bhi i old cols newRow best).1
        ∧ BestBound alo ahi blo bhi
            (innerLoop blo bhi i old cols newRow best).2 := by
  intro cols
  induction cols with
  | nil =>
    intro newRow best h1 h2
    exact ⟨h1, h2⟩
  | cons j rest ih =>
    intro newRow best h1 h2
    rw [innerLoop]
    by_cases hj1 : j < blo
    · rw [if_pos hj1]
      exact ih newRow best h1 h2
    · rw [if_neg hj1]
      by_cases hj2 : bhi ≤ j
      · rw [if_pos hj2]
        exact ⟨h1, h2⟩
      · rw [if_neg hj2]
        push_neg at hj1 hj2
        have hk1 : ((if j = 0 then 0 else old (j - 1)) + 1) + alo ≤ i + 1 := by
          by_cases hj0 : j = 0
          · rw [if_pos hj0]; omega
          · rw [if_neg hj0]
            have hr := (hrow (j - 1)).1
            omega
        have hk2 : ((if j = 0 then 0 else old (j - 1)) + 1) + blo ≤ j + 1 := by
          by_cases hj0 : j = 0
          · rw [if_pos hj0]; omega
          · rw [if_neg hj0]
            rcases Nat.eq_zero_or_pos (old (j - 1)) with h0 | h0
            · rw [h0]; omega
            · have hr := (hrow (j - 1)).2 h0
              omega
        refine ih _ _ ?_ ?_
        · intro x
          by_cases hx : x = j
          · subst hx
            simp only [if_pos rfl]
            exact ⟨hk1, fun _ => hk2⟩
          · simp only [if_neg hx]
            exact h1 x
        · by_cases hbest : best.2.2 < (if j = 0 then 0 else old (j - 1)) + 1
          · rw [if_pos hbest]
            exact bestBound_mk _ _ _ _ _ _ _ (by omega) (by omega) (by omega)
              (by omega)
          · rw [if_neg hbest]
            exact h2

theorem flmDP_fold_bound (a b : List String) (alo blo bhi ahi : Nat) :
    ∀ (m start : Nat) (old : Nat → Nat) (best : Nat × Nat × Nat),
      alo ≤ start → start + m ≤ ahi →
      RowBound alo blo start old → BestBound alo ahi blo bhi best →
      BestBound alo ahi blo bhi
        (((List.range' start m).foldl
          (fun st i =>
            innerLoop blo bhi i st.1 (b2jList b (a.getD i "")) (fun _ => 0) st.2)
          (old, best)).2) := by
  intro m
  induction m with
  | zero =>
    intro start old best _ _ _ hb
    simpa using hb
  | succ m ih =>
    intro start old best h1 h2 hrow hbest
    rw [List.range'_succ, List.foldl_cons]
    have hzero : RowBound alo blo (start + 1) (fun _ => 0) := by
      intro j
      constructor
      · show 0 + alo ≤ start + 1
        omega
      · intro h
        simp at h
    have hstep := innerLoop_bound alo ahi blo bhi start old hrow h1 (by omega)
      (b2jList b (a.getD start "")) (fun _ => 0) best hzero hbest
    exact ih (start + 1) _ _ (by omega) (by omega) hstep.1 hstep.2

theorem extBack_bound (a b : List String) (alo ahi blo bhi : Nat) :
    ∀ (bi bj k : Nat), BestBound alo ahi blo bhi (bi, bj, k) →
      BestBound alo ahi blo bhi (extBack a b alo blo bi bj k) := by
  intro bi
  induction bi with
  | zero =>
    intro bj k h
    rw [extBack]
    exact h
  | succ bi ih =>
    intro bj k h
    rw [extBack]
    by_cases hg : alo < bi + 1 ∧ blo < bj ∧ a.getD bi "" = b.getD (bj - 1) ""
    · rw [if_pos hg]
      obtain ⟨h1, h2, h3, h4⟩ := bestBound_out _ _ _ _ _ _ _ h
      obtain ⟨hg1, hg2, hg3⟩ := hg
      exact ih (bj - 1) (k + 1)
        (bestBound_mk _ _ _ _ _ _ _ (by omega) (by omega) (by omega) (by omega))
    · rw [if_neg hg]
      exact h

theorem extFwd_bound (a b : List String) (ahi bhi bi bj : Nat) :
    ∀ (fuel k : Nat), bi + k ≤ ahi → bj + k ≤ bhi →
      bi + extFwd a b ahi bhi bi bj fuel k ≤ ahi
        ∧ bj + extFwd a b ahi bhi bi bj fuel k ≤ bhi := by
  intro fuel
  induction fuel with
  | zero =>
    intro k h1 h2
    rw [extFwd]
    exact ⟨h1, h2⟩
  | succ fuel ih =>
    intro k h1 h2
    rw [extFwd]
    by_cases hg : bi + k < ahi ∧ bj + k < bhi ∧ a.getD (bi + k) "" = b.getD (bj + k) ""
    · rw [if_pos hg]
      exact ih (k + 1) (by omega) (by omega)
    · rw [if_neg hg]
      exact ⟨h1, h2⟩

theorem findLongestMatch_bound (a b : List String) (alo ahi blo bhi : Nat)
    (h1 : alo ≤ ahi) (h2 : blo ≤ bhi) :
    alo ≤ (findLongestMatch a b alo ahi blo bhi).1
    ∧ blo ≤ (findLongestMatch a b alo ahi blo bhi).2.1
    ∧ (findLongestMatch a b alo ahi blo bhi).1
        + (findLongestMatch a b alo ahi blo bhi).2.2 ≤ ahi
    ∧ (findLongestMatch a b alo ahi blo bhi).2.1
        + (findLongestMatch a b alo ahi blo bhi).2.2 ≤ bhi := by
  have hdp : BestBound alo ahi blo bhi (flmDP a b alo ahi blo bhi) := by
    unfold flmDP
    refine flmDP_fold_bound a b alo blo bhi ahi (ahi - alo) alo (fun _ => 0)
      (alo, blo, 0) le_rfl (by omega) ?_ ?_
    · intro j
      constructor
      · show 0 + alo ≤ alo
        omega
      · intro h
        simp at h
    · exact bestBound_mk _ _ _ _ _ _ _ le_rfl le_rfl (by omega) (by omega)
  have hext : BestBound alo ahi blo bhi
      (extBack a b alo blo (flmDP a b alo ahi blo bhi).1
        (flmDP a b alo ahi blo bhi).2.1 (flmDP a b alo ahi blo bhi).2.2) :=
    extBack_bound a b alo ahi blo bhi _ _ _ hdp
  obtain ⟨he1, he2, he3, he4⟩ := hext
  have hfwd := extFwd_bound a b ahi bhi
    (extBack a b alo blo (flmDP a b alo ahi blo bhi).1
      (flmDP a b alo ahi blo bhi).2.1 (flmDP a b alo ahi blo bhi).2.2).1
    (extBack a b alo blo (flmDP a b alo ahi blo bhi).1
      (flmDP a b alo ahi blo bhi).2.1 (flmDP a b alo ahi blo bhi).2.2).2.1
    (ahi - ((extBack a b alo blo (flmDP a b alo ahi blo bhi).1
      (flmDP a b alo ahi blo bhi).2.1 (flmDP a b alo ahi blo bhi).2.2).1
        + (extBack a b alo blo (flmDP a b alo ahi blo bhi).1
          (flmDP a b alo ahi blo bhi).2.1 (flmDP a b alo ahi blo bhi).2.2).2.2))
    (extBack a b alo blo (flmDP a b alo ahi blo bhi).1
      (flmDP a b alo ahi blo bhi).2.1 (flmDP a b alo ahi blo bhi).2.2).2.2
    he3 he4
  exact ⟨he1, he2, hfwd.1, hfwd.2⟩

theorem blocksFuel_bound (a b : List String) :
    ∀ (fuel alo ahi blo bhi : Nat), alo ≤ ahi → blo ≤ bhi →
      ∀ bl ∈ blocksFuel a b fuel alo ahi blo bhi,
        bl.1 + bl.2.2 ≤ ahi ∧ bl.2.1 + bl.2.2 ≤ bhi := by
  intro fuel
  induction fuel with
  | zero =>
    intro alo ahi blo bhi _ _ bl hbl
    simp [blocksFuel] at hbl
  | succ fuel ih =>
    intro alo ahi blo bhi h1 h2 bl hbl
    simp only [blocksFuel] at hbl
    obtain ⟨hm1, hm2, hm3, hm4⟩ := findLongestMatch_bound a b alo ahi blo bhi h1 h2
    by_cases hk : (findLongestMatch a b alo ahi blo bhi).2.2 = 0
    · rw [if_pos hk] at hbl
      cases hbl
    · rw [if_neg hk] at hbl
      rcases List.mem_append.mp hbl with hbl | hbl
      · by_cases hc : alo < (findLongestMatch a b alo ahi blo bhi).1
          ∧ blo < (findLongestMatch a b alo ahi blo bhi).2.1
        · rw [if_pos hc] at hbl
          have hrec := ih alo (findLongestMatch a b alo ahi blo bhi).1 blo
            (findLongestMatch a b alo ahi blo bhi).2.1
            (by omega) (by omega) bl hbl
          omega
        · rw [if_neg hc] at hbl
          cases hbl
      · rcases List.mem_cons.mp hbl with hbl | hbl
        · subst hbl
          exact ⟨hm3, hm4⟩
        · by_cases hc : (findLongestMatch a b alo ahi blo bhi).1
              + (findLongestMatch a b alo ahi blo bhi).2.2 < ahi
            ∧ (findLongestMatch a b alo ahi blo bhi).2.1
              + (findLongestMatch a b alo ahi blo bhi).2.2 < bhi
          · rw [if_pos hc] at hbl
            exact ih _ ahi _ bhi (by omega) (by omega) bl hbl
          · rw [if_neg hc] at hbl
            cases hbl

theorem mergeFold_bound (la lb : Nat) :
    ∀ (raw : List (Nat × Nat × Nat)) (st : Nat × Nat × Nat × List (Nat × Nat × Nat)),
      (∀ bl ∈ raw, bl.1 + bl.2.2 ≤ la ∧ bl.2.1 + bl.2.2 ≤ lb) →
      st.1 + st.2.2.1 ≤ la → st.2.1 + st.2.2.1 ≤ lb →
      (∀ bl ∈ st.2.2.2, bl.1 + bl.2.2 ≤ la ∧ bl.2.1 + bl.2.2 ≤ lb) →
      (raw.foldl mergeStep st).1 + (raw.foldl mergeStep st).2.2.1 ≤ la
        ∧ (raw.foldl mergeStep st).2.1 + (raw.foldl mergeStep st).2.2.1 ≤ lb
        ∧ ∀ bl ∈ (raw.foldl mergeStep st).2.2.2,
            bl.1 + bl.2.2 ≤ la ∧ bl.2.1 + bl.2.2 ≤ lb := by
  intro raw
  induction raw with
  | nil =>
    intro st _ h1 h2 h3
    exact ⟨h1, h2, h3⟩
  | cons hd tl ih =>
    intro st hraw h1 h2 h3
    rw [List.foldl_cons]
    obtain ⟨i1, j1, k1, acc⟩ := st
    obtain ⟨i2, j2, k2⟩ := hd
    have hhd := hraw (i2, j2, k2) (List.mem_cons_self _ _)
    have htl : ∀ bl ∈ tl, bl.1 + bl.2.2 ≤ la ∧ bl.2.1 + bl.2.2 ≤ lb :=
      fun bl hbl => hraw bl (List.mem_cons_of_mem _ hbl)
    simp only [] at h1 h2 h3 hhd
    rw [mergeStep]
    by_cases hm : i1 + k1 = i2 ∧ j1 + k1 = j2
    · rw [if_pos hm]
      exact ih _ htl (show i1 + (k1 + k2) ≤ la by omega)
        (show j1 + (k1 + k2) ≤ lb by omega) h3
    · rw [if_neg hm]
      by_cases hk1 : k1 ≠ 0
      · rw [if_pos hk1]
        refine ih _ htl (show i2 + k2 ≤ la by omega)
          (show j2 + k2 ≤ lb by omega) ?_
        intro bl hbl
        rcases List.mem_append.mp hbl with hbl | hbl
        · exact h3 bl hbl
        · rcases List.mem_cons.mp hbl with hbl | hbl
          · subst hbl
            exact ⟨h1, h2⟩
          · cases hbl
      · rw [if_neg hk1]
        exact ih _ htl (show i2 + k2 ≤ la by omega)
          (show j2 + k2 ≤ lb by omega) h3

theorem matchingBlocks_bound (a b : List String) :
    ∀ bl ∈ matchingBlocks a b,
      bl.1 + bl.2.2 ≤ a.length ∧ bl.2.1 + bl.2.2 ≤ b.length := by
  intro bl hbl
  simp only [matchingBlocks] at hbl
  have hraw := blocksFuel_bound a b (a.length + b.length + 1) 0 a.length 0
    b.length (by omega) (by omega)
  have hfold := mergeFold_bound a.length b.length
    (blocksFuel a b (a.length + b.length + 1) 0 a.length 0 b.length)
    (0, 0, 0, []) hraw (by simp) (by simp) (by simp)
  rcases List.mem_append.mp hbl with hbl | hbl
  · obtain ⟨hf1, hf2, hf3⟩ := hfold
    set fin := (blocksFuel a b (a.length + b.length + 1) 0 a.length 0
      b.length).foldl mergeStep (0, 0, 0, []) with hfin
    obtain ⟨i1, j1, k1, acc⟩ := fin
    simp only [] at hf1 hf2 hf3 hbl
    by_cases hk1 : k1 ≠ 0
    · rw [if_pos hk1] at hbl
      rcases List.mem_append.mp hbl with hbl | hbl
      · exact hf3 bl hbl
      · rcases List.mem_cons.mp hbl with hbl | hbl
        · subst hbl
          exact ⟨hf1, hf2⟩
        · cases hbl
    · rw [if_neg hk1] at hbl
      exact hf3 bl hbl
  · rcases List.mem_cons.mp hbl with hbl | hbl
    · subst hbl
      exact ⟨by simp, by simp⟩
    · cases hbl

theorem opcodeFold_bound (la lb : Nat) :
    ∀ (blocks : List (Nat × Nat × Nat)) (st : Nat × Nat × List Opcode),
      (∀ bl ∈ blocks, bl.1 + bl.2.2 ≤ la ∧ bl.2.1 + bl.2.2 ≤ lb) →
      (∀ op ∈ st.2.2, op.i2 ≤ la ∧ op.j2 ≤ lb) →
      ∀ op ∈ (blocks.foldl opcodeStep st).2.2, op.i2 ≤ la ∧ op.j2 ≤ lb := by
  intro blocks
  induction blocks with
  | nil =>
    intro st _ hst
    exact hst
  | cons hd tl ih =>
    intro st hblocks hst op hop
    rw [List.foldl_cons] at hop
    obtain ⟨i, j, ans⟩ := st
    obtain ⟨ai, bj, size⟩ := hd
    have hhd := hblocks (ai, bj, size) (List.mem_cons_self _ _)
    simp only [] at hhd
    have htl : ∀ bl ∈ tl, bl.1 + bl.2.2 ≤ la ∧ bl.2.1 + bl.2.2 ≤ lb :=
      fun bl hbl => hblocks bl (List.mem_cons_of_mem _ hbl)
    refine ih _ htl ?_ op hop
    intro op' hop'
    rw [opcodeStep] at hop'
    simp only [] at hop'
    have hmem : ∀ (tag : OpTag),
        op' ∈ ans ++ [⟨tag, i, ai, j, bj⟩] → op'.i2 ≤ la ∧ op'.j2 ≤ lb := by
      intro tag hmem
      rcases List.mem_append.mp hmem with hmem | hmem
      · exact hst op' hmem
      · rcases List.mem_cons.mp hmem with hmem | hmem
        · subst hmem
          exact ⟨show ai ≤ la by omega, show bj ≤ lb by omega⟩
        · cases hmem
    by_cases hsz : size ≠ 0
    · rw [if_pos hsz] at hop'
      rcases List.mem_append.mp hop' with hop' | hop'
      · by_cases hc1 : i < ai ∧ j < bj
        · rw [if_pos hc1] at hop'
          exact hmem _ hop'
        · rw [if_neg hc1] at hop'
          by_cases hc2 : i < ai
          · rw [if_pos hc2] at hop'
            exact hmem _ hop'
          · rw [if_neg hc2] at hop'
            by_cases hc3 : j < bj
            · rw [if_pos hc3] at hop'
              exact hmem _ hop'
            · rw [if_neg hc3] at hop'
              exact hst op' hop'
      · rcases List.mem_cons.mp hop' with hop' | hop'
        · subst hop'
          exact ⟨show ai + size ≤ la by omega, show bj + size ≤ lb by omega⟩
        · cases hop'
    · rw [if_neg hsz] at hop'
      by_cases hc1 : i < ai ∧ j < bj
      · rw [if_pos hc1] at hop'
        exact hmem _ hop'
      · rw [if_neg hc1] at hop'
        by_cases hc2 : i < ai
        · rw [if_pos hc2] at hop'
          exact hmem _ hop'
        · rw [if_neg hc2] at hop'
          by_cases hc3 : j < bj
          · rw [if_pos hc3] at hop'
            exact hmem _ hop'
          · rw [if_neg hc3] at hop'
            exact hst op' hop'

theorem getOpcodes_bound (a b : List String) :
    ∀ op ∈ getOpcodes a b, op.i2 ≤ a.length ∧ op.j2 ≤ b.length := by
  intro op hop
  exact opcodeFold_bound a.length b.length (matchingBlocks a b) (0, 0, [])
    (matchingBlocks_bound a b) (by simp) op hop

theorem rawBadWords_eq_flatMap (origWords recWords : List String)
    (ops : List Opcode) :
    rawBadWords origWords recWords ops
      = ops.flatMap (flagOpcode origWords recWords) := by
  rw [rawBadWords,
    foldl_acc_append (flagOpcode origWords recWords) _ (fun acc op => rfl),
    List.nil_append]

theorem specFlagRun_subset (origWords recWords : List String) (op : Opcode)
    (hb : op.i2 ≤ origWords.length) :
    ∀ w ∈ specFlagRun origWords recWords op, w ∈ origWords := by
  intro w hw
  have hidx : ∀ i, i ∈ List.range' op.i1 (op.i2 - op.i1) →
      origWords.getD i "" ∈ origWords := by
    intro i hi
    obtain ⟨t, ht, hit⟩ := List.mem_range'.mp hi
    have hlt : i < origWords.length := by omega
    rw [List.getD_eq_getElem origWords "" hlt]
    exact List.getElem_mem hlt
  rw [specFlagRun] at hw
  cases htag : op.tag
  all_goals rw [htag] at hw
  · obtain ⟨i, hi, hwi⟩ := List.mem_flatMap.mp hw
    by_cases hc : i - op.i1 < op.j2 - op.j1
    · rw [if_pos hc] at hwi
      by_cases hne : origWords.getD i ""
          ≠ recWords.getD (op.j1 + (i - op.i1)) ""
      · rw [if_pos hne] at hwi
        rcases List.mem_cons.mp hwi with hwi | hwi
        · subst hwi; exact hidx i hi
        · cases hwi
      · rw [if_neg hne] at hwi
        cases hwi
    · rw [if_neg hc] at hwi
      rcases List.mem_cons.mp hwi with hwi | hwi
      · subst hwi; exact hidx i hi
      · cases hwi
  · obtain ⟨i, hi, hwi⟩ := List.mem_map.mp hw
    rw [← hwi]
    exact hidx i hi
  · cases hw
  · cases hw

theorem rawBadWords_subset (origWords recWords : List String) :
    ∀ w ∈ rawBadWords origWords recWords (getOpcodes origWords recWords),
      w ∈ origWords := by
  intro w hw
  rw [rawBadWords_eq_flatMap] at hw
  obtain ⟨op, hop, hwop⟩ := List.mem_flatMap.mp hw
  rw [flagOpcode_eq_specFlagRun] at hwop
  exact specFlagRun_subset origWords recWords op
    (getOpcodes_bound origWords recWords op hop).1 w hwop

/-- C3: the output invariants of the mismatch detector.  For every
reference and recognized text, `find_bad_words` returns a subset of the
cleaned reference-word sequence, with no duplicates, no stopwords, no
words of length ≤ 2, ordered by first occurrence among the flagged
reference tokens. -/
theorem find_bad_words_invariants (referenceText recognizedText : String) :
    (∀ w ∈ find_bad_words referenceText recognizedText,
        w ∈ cleanTextWords referenceText)
    ∧ (find_bad_words referenceText recognizedText).Nodup
    ∧ (∀ w ∈ find_bad_words referenceText recognizedText,
        stopWords.contains w = false ∧ 2 < w.length)
    ∧ (find_bad_words referenceText recognizedText).Pairwise
        (fun u v =>
          firstIdx
            (rawBadWords (cleanTextWords referenceText)
              (cleanTextWords recognizedText)
              (getOpcodes (cleanTextWords referenceText)
                (cleanTextWords recognizedText))) u
          < firstIdx
            (rawBadWords (cleanTextWords referenceText)
              (cleanTextWords recognizedText)
              (getOpcodes (cleanTextWords referenceText)
                (cleanTextWords recognizedText))) v) := by
  have heq : find_bad_words referenceText recognizedText
      = dedupFilter []
          (rawBadWords (cleanTextWords referenceText)
            (cleanTextWords recognizedText)
            (getOpcodes (cleanTextWords referenceText)
              (cleanTextWords recognizedText))) := rfl
  refine ⟨?_, ?_, ?_, ?_⟩
  · intro w hw
    rw [heq] at hw
    exact rawBadWords_subset _ _ w (dedupFilter_mem _ _ w hw).1
  · rw [heq]
    exact dedupFilter_nodup _ _
  · intro w hw
    rw [heq] at hw
    obtain ⟨_, hstop, hlen, _⟩ := dedupFilter_mem _ _ w hw
    exact ⟨hstop, hlen⟩
  · rw [heq]
    exact dedupFilter_pairwise _ _

/-- C3 witness: on a concrete pair the detector flags `"dog"`, which
indeed lies in the cleaned reference words, passes the filters, and the
output is duplicate-free. -/
theorem find_bad_words_invariants_witness :
    "dog" ∈ cleanTextWords "cat dog"
    ∧ (find_bad_words "cat dog" "cat log").Nodup
    ∧ stopWords.contains "dog" = false ∧ 2 < "dog".length := by
  have h := find_bad_words_invariants "cat dog" "cat log"
  have hmem : "dog" ∈ find_bad_words "cat dog" "cat log" := by decide
  exact ⟨h.1 "dog" hmem, h.2.1, (h.2.2.1 "dog" hmem).1,
    (h.2.2.1 "dog" hmem).2⟩

/-! ## C10 groundwork: the matcher on two identical sequences

With `a = b` the whole top-level match is recovered by the extension
loops as soon as the running best of the DP sweep is diagonal; the sweep
keeps it diagonal because a cell `(r, j)` of the longest-common-suffix
table is always dominated by the diagonal cells `(r, r)` and `(j, j)`,
and the iteration order visits those dominating cells first. -/

/-- The longest-common-suffix table of `l` against itself at the top-level
call (`blo = 0`, `bhi = l.length`): `selfCell r j` is the value
`j2len[j]` holds after row `r`, zero for columns outside `b2j`. -/
def selfCell (l : List String) : Nat → Nat → Nat
  | 0, j => if j ∈ b2jList l (l.getD 0 "") then 1 else 0
  | r + 1, 0 => if 0 ∈ b2jList l (l.getD (r + 1) "") then 1 else 0
  | r + 1, j + 1 =>
    if j + 1 ∈ b2jList l (l.getD (r + 1) "") then selfCell l r j + 1 else 0

/-- The row `j2len` holds when row `i` is about to be processed. -/
def prevSelf (l : List String) : Nat → Nat → Nat
  | 0, _ => 0
  | r + 1, j => selfCell l r j

theorem selfCell_row0_eq (l : List String) (j : Nat) :
    selfCell l 0 j = if j ∈ b2jList l (l.getD 0 "") then 1 else 0 := rfl

theorem selfCell_col0_eq (l : List String) (r : Nat) :
    selfCell l (r + 1) 0
      = if 0 ∈ b2jList l (l.getD (r + 1) "") then 1 else 0 := rfl

theorem selfCell_succ_eq (l : List String) (r j : Nat) :
    selfCell l (r + 1) (j + 1)
      = if j + 1 ∈ b2jList l (l.getD (r + 1) "") then selfCell l r j + 1
        else 0 := rfl

theorem mem_b2jList (b : List String) (x : String) (j : Nat) :
    j ∈ b2jList b x ↔
      bPopular b x = false ∧ j < b.length ∧ b.getD j "" = x := by
  unfold b2jList
  by_cases hpop : bPopular b x
  · rw [if_pos hpop]
    simp [hpop]
  · rw [if_neg hpop]
    rw [List.mem_filter, List.mem_range]
    constructor
    · intro ⟨h1, h2⟩
      exact ⟨Bool.of_not_eq_true hpop, h1, by simpa using h2⟩
    · intro ⟨_, h1, h2⟩
      exact ⟨h1, by simpa using h2⟩

theorem b2jList_sorted (b : List String) (x : String) :
    (b2jList b x).Pairwise (· < ·) := by
  unfold b2jList
  by_cases hpop : bPopular b x
  · rw [if_pos hpop]
    exact List.Pairwise.nil
  · rw [if_neg hpop]
    exact (List.pairwise_lt_range _).filter _

theorem selfCell_le (l : List String) :
    ∀ r j, selfCell l r j ≤ r + 1 := by
  intro r
  induction r with
  | zero =>
    intro j
    rw [selfCell]
    split
    · omega
    · omega
  | succ r ih =>
    intro j
    cases j with
    | zero =>
      rw [selfCell]
      split
      · omega
      · omega
    | succ j =>
      rw [selfCell]
      split
      · have := ih j
        omega
      · omega

theorem selfCell_eq_zero_of_not_mem (l : List String) (r j : Nat)
    (h : j ∉ b2jList l (l.getD r "")) : selfCell l r j = 0 := by
  cases r with
  | zero =>
    rw [selfCell, if_neg h]
  | succ r =>
    cases j with
    | zero => rw [selfCell, if_neg h]
    | succ j => rw [selfCell, if_neg h]

theorem selfCell_pos_mem (l : List String) (r j : Nat)
    (h : 0 < selfCell l r j) : j ∈ b2jList l (l.getD r "") := by
  by_contra hc
  rw [selfCell_eq_zero_of_not_mem l r j hc] at h
  omega

/-- The value the inner loop computes at a column in `b2j` is the
denotational cell value. -/
theorem selfCell_step (l : List String) (i j : Nat)
    (hmem : j ∈ b2jList l (l.getD i "")) :
    selfCell l i j = (if j = 0 then 0 else prevSelf l i (j - 1)) + 1 := by
  cases i with
  | zero =>
    rw [selfCell_row0_eq, if_pos hmem]
    cases j with
    | zero => rfl
    | succ j => simp [prevSelf]
  | succ i =>
    cases j with
    | zero =>
      rw [selfCell_col0_eq, if_pos hmem]
      simp
    | succ j =>
      rw [selfCell_succ_eq, if_pos hmem]
      simp [prevSelf]

/-- Diagonal dominance: every cell is bounded by the diagonal cells in
its row and in its column. -/
theorem selfCell_dominated (l : List String) :
    ∀ r j, r < l.length → j < l.length →
      selfCell l r j ≤ selfCell l r r ∧ selfCell l r j ≤ selfCell l j j := by
  intro r
  induction r with
  | zero =>
    intro j hr hj
    by_cases hmem : j ∈ b2jList l (l.getD 0 "")
    · obtain ⟨hpop, hjn, hjeq⟩ := (mem_b2jList l _ j).mp hmem
      have hdiag0 : (0 : Nat) ∈ b2jList l (l.getD 0 "") :=
        (mem_b2jList l _ 0).mpr ⟨hpop, hr, rfl⟩
      have hjj : j ∈ b2jList l (l.getD j "") :=
        (mem_b2jList l _ j).mpr ⟨by rw [hjeq]; exact hpop, hjn, rfl⟩
      constructor
      · rw [selfCell_row0_eq, if_pos hmem, selfCell_row0_eq, if_pos hdiag0]
      · rw [selfCell_row0_eq, if_pos hmem]
        cases j with
        | zero =>
          rw [selfCell_row0_eq, if_pos hjj]
        | succ j' =>
          rw [selfCell_succ_eq, if_pos hjj]
          omega
    · rw [selfCell_eq_zero_of_not_mem l 0 j hmem]
      exact ⟨Nat.zero_le _, Nat.zero_le _⟩
  | succ r ih =>
    intro j hr hj
    by_cases hmem : j ∈ b2jList l (l.getD (r + 1) "")
    · obtain ⟨hpop, hjn, hjeq⟩ := (mem_b2jList l _ j).mp hmem
      have hdiag : (r + 1) ∈ b2jList l (l.getD (r + 1) "") :=
        (mem_b2jList l _ (r + 1)).mpr ⟨hpop, hr, rfl⟩
      have hjj : j ∈ b2jList l (l.getD j "") :=
        (mem_b2jList l _ j).mpr ⟨by rw [hjeq]; exact hpop, hjn, rfl⟩
      cases j with
      | zero =>
        constructor
        · rw [selfCell_col0_eq, if_pos hmem, selfCell_succ_eq, if_pos hdiag]
          omega
        · rw [selfCell_col0_eq, if_pos hmem, selfCell_row0_eq, if_pos hjj]
      | succ j' =>
        have hih := ih j' (by omega) (by omega)
        constructor
        · rw [selfCell_succ_eq, if_pos hmem, selfCell_succ_eq, if_pos hdiag]
          omega
        · rw [selfCell_succ_eq, if_pos hmem, selfCell_succ_eq, if_pos hjj]
          omega
    · rw [selfCell_eq_zero_of_not_mem l (r + 1) j hmem]
      exact ⟨Nat.zero_le _, Nat.zero_le _⟩

/-- The inner loop at the top-level self call keeps the best diagonal and
in range, keeps it dominating all processed cells, and computes exactly
the denotational row. -/
theorem innerLoop_self (l : List String) (i : Nat) (hi : i < l.length)
    (old : Nat → Nat) (hold : ∀ j, old j = prevSelf l i j) :
    ∀ (L P : List Nat) (newRow : Nat → Nat) (best : Nat × Nat × Nat),
      b2jList l (l.getD i "") = P ++ L →
      (∀ x, newRow x = if x ∈ P then selfCell l i x else 0) →
      best.1 = best.2.1 →
      best.1 + best.2.2 ≤ l.length →
      (∀ t, t < i → selfCell l t t ≤ best.2.2) →
      (∀ c ∈ P, selfCell l i c ≤ best.2.2) →
      (∀ x, (innerLoop 0 l.length i old L newRow best).1 x
          = if x ∈ b2jList l (l.getD i "") then selfCell l i x else 0)
        ∧ (innerLoop 0 l.length i old L newRow best).2.1
            = (innerLoop 0 l.length i old L newRow best).2.2.1
        ∧ (innerLoop 0 l.length i old L newRow best).2.1
            + (innerLoop 0 l.length i old L newRow best).2.2.2 ≤ l.length
        ∧ (∀ t, t < i →
            selfCell l t t ≤ (innerLoop 0 l.length i old L newRow best).2.2.2)
        ∧ (∀ c ∈ b2jList l (l.getD i ""),
            selfCell l i c ≤ (innerLoop 0 l.length i old L newRow best).2.2.2) := by
  intro L
  induction L with
  | nil =>
    intro P newRow best hsplit hrow hb1 hb2 hb3 hb4
    rw [innerLoop]
    refine ⟨?_, hb1, hb2, hb3, ?_⟩
    · intro x
      show newRow x = _
      rw [hrow x, hsplit, List.append_nil]
    · intro c hc
      rw [hsplit, List.append_nil] at hc
      exact hb4 c hc
  | cons j rest ih =>
    intro P newRow best hsplit hrow hb1 hb2 hb3 hb4
    have hjmem : j ∈ b2jList l (l.getD i "") := by
      rw [hsplit]
      exact List.mem_append.mpr (Or.inr (List.mem_cons_self _ _))
    obtain ⟨hpop, hjn, hjeq⟩ := (mem_b2jList _ _ _).mp hjmem
    have hk : (if j = 0 then 0 else old (j - 1)) + 1 = selfCell l i j := by
      rw [selfCell_step l i j hjmem]
      by_cases hj0 : j = 0
      · rw [if_pos hj0, if_pos hj0]
      · rw [if_neg hj0, if_neg hj0, hold (j - 1)]
    have hsplit' : b2jList l (l.getD i "") = (P ++ [j]) ++ rest := by
      rw [hsplit, List.append_cons]
    have hkle : selfCell l i j ≤ i + 1 := selfCell_le l i j
    simp only [innerLoop]
    rw [if_neg (show ¬ j < 0 by omega),
      if_neg (show ¬ l.length ≤ j by omega), hk]
    by_cases hbest : best.2.2 < selfCell l i j
    · rw [if_pos hbest]
      have hji : j = i := by
        by_contra hne
        rcases Nat.lt_or_ge j i with hlt | hge
        · have hdom := (selfCell_dominated l i j hi (by omega)).2
          have hrowdom := hb3 j hlt
          omega
        · have hgt : i < j := by omega
          have himem : i ∈ b2jList l (l.getD i "") :=
            (mem_b2jList _ _ _).mpr ⟨hpop, hi, rfl⟩
          have hiP : i ∈ P := by
            have hin : i ∈ P ++ j :: rest := by
              rw [← hsplit]
              exact himem
            rcases List.mem_append.mp hin with h | h
            · exact h
            · rcases List.mem_cons.mp h with h | h
              · omega
              · have hsort := b2jList_sorted l (l.getD i "")
                rw [hsplit] at hsort
                have hlt2 := List.rel_of_pairwise_cons
                  (List.pairwise_append.mp hsort).2.1 h
                omega
          have hdom := (selfCell_dominated l i j hi (by omega)).1
          have hPdom := hb4 i hiP
          omega
      subst hji
      refine ih (P ++ [j]) _ _ hsplit' ?_ rfl ?_ ?_ ?_
      · intro x
        by_cases hx : x = j
        · subst hx
          simp
        · simp only [if_neg hx, hrow x]
          have hmm : (x ∈ P ++ [j]) ↔ x ∈ P := by
            simp [List.mem_append, hx]
          by_cases hxP : x ∈ P
          · rw [if_pos hxP, if_pos (hmm.mpr hxP)]
          · rw [if_neg hxP, if_neg (fun hc => hxP (hmm.mp hc))]
      · show j + 1 - selfCell l j j + selfCell l j j ≤ l.length
        omega
      · intro t ht
        show selfCell l t t ≤ selfCell l j j
        have := hb3 t ht
        omega
      · intro c hc
        rcases List.mem_append.mp hc with hc | hc
        · have := hb4 c hc
          show selfCell l j c ≤ selfCell l j j
          omega
        · rcases List.mem_cons.mp hc with hc | hc
          · subst hc
            exact le_rfl
          · cases hc
    · rw [if_neg hbest]
      refine ih (P ++ [j]) _ _ hsplit' ?_ hb1 hb2 hb3 ?_
      · intro x
        by_cases hx : x = j
        · subst hx
          simp
        · simp only [if_neg hx, hrow x]
          have hmm : (x ∈ P ++ [j]) ↔ x ∈ P := by
            simp [List.mem_append, hx]
          by_cases hxP : x ∈ P
          · rw [if_pos hxP, if_pos (hmm.mpr hxP)]
          · rw [if_neg hxP, if_neg (fun hc => hxP (hmm.mp hc))]
      · intro c hc
        rcases List.mem_append.mp hc with hc | hc
        · exact hb4 c hc
        · rcases List.mem_cons.mp hc with hc | hc
          · subst hc
            omega
          · cases hc

/-- A best candidate that is diagonal and in range. -/
def DiagBest (n : Nat) (best : Nat × Nat × Nat) : Prop :=
  best.1 = best.2.1 ∧ best.1 + best.2.2 ≤ n

theorem flmDP_self_fold (l : List String) :
    ∀ (m start : Nat) (old : Nat → Nat) (best : Nat × Nat × Nat),
      start + m = l.length →
      (∀ j, old j = prevSelf l start j) →
      DiagBest l.length best →
      (∀ t, t < start → selfCell l t t ≤ best.2.2) →
      DiagBest l.length
        (((List.range' start m).foldl
          (fun st i =>
            innerLoop 0 l.length i st.1 (b2jList l (l.getD i ""))
              (fun _ => 0) st.2)
          (old, best)).2) := by
  intro m
  induction m with
  | zero =>
    intro start old best _ _ hb _
    exact hb
  | succ m ih =>
    intro start old best hm hold hb hrows
    rw [List.range'_succ, List.foldl_cons]
    have hstart : start < l.length := by omega
    have hres := innerLoop_self l start hstart old hold
      (b2jList l (l.getD start "")) [] (fun _ => 0) best rfl
      (fun x => by simp) hb.1 hb.2 hrows (fun c hc => by cases hc)
    obtain ⟨hrow', hd1, hd2, hrows', hcols'⟩ := hres
    refine ih (start + 1) _ _ (by omega) ?_ ⟨hd1, hd2⟩ ?_
    · intro j
      rw [hrow' j]
      by_cases hj : j ∈ b2jList l (l.getD start "")
      · rw [if_pos hj]
        rfl
      · rw [if_neg hj, show prevSelf l (start + 1) j = selfCell l start j from rfl,
          selfCell_eq_zero_of_not_mem l start j hj]
    · intro t ht
      rcases Nat.lt_or_ge t start with hlt | hge
      · exact hrows' t hlt
      · have hts : t = start := by omega
        subst hts
        by_cases hmem : t ∈ b2jList l (l.getD t "")
        · exact hcols' t hmem
        · rw [selfCell_eq_zero_of_not_mem l t t hmem]
          omega

theorem flmDP_self (l : List String) :
    DiagBest l.length (flmDP l l 0 l.length 0 l.length) := by
  unfold flmDP
  rw [Nat.sub_zero]
  exact flmDP_self_fold l l.length 0 (fun _ => 0) (0, 0, 0) (by omega)
    (fun j => rfl) ⟨rfl, Nat.zero_le _⟩
    (fun t ht => absurd ht (Nat.not_lt_zero t))

theorem extBack_self (l : List String) :
    ∀ (bi k : Nat), extBack l l 0 0 bi bi k = (0, 0, bi + k) := by
  intro bi
  induction bi with
  | zero =>
    intro k
    rw [extBack]
    simp
  | succ bi ih =>
    intro k
    rw [extBack, if_pos ⟨by omega, by omega, rfl⟩]
    rw [show bi + 1 - 1 = bi from rfl, ih (k + 1)]
    have h : bi + (k + 1) = bi + 1 + k := by omega
    rw [h]

theorem extFwd_self (l : List String) :
    ∀ (fuel k : Nat), l.length ≤ k + fuel → k ≤ l.length →
      extFwd l l l.length l.length 0 0 fuel k = l.length := by
  intro fuel
  induction fuel with
  | zero =>
    intro k h1 h2
    rw [extFwd]
    omega
  | succ fuel ih =>
    intro k h1 h2
    rw [extFwd]
    by_cases hk : k < l.length
    · rw [if_pos ⟨by omega, by omega, rfl⟩]
      exact ih (k + 1) (by omega) (by omega)
    · rw [if_neg (fun hc => absurd hc.1 (by omega))]
      omega

theorem findLongestMatch_self (l : List String) :
    findLongestMatch l l 0 l.length 0 l.length = (0, 0, l.length) := by
  obtain ⟨hd1, hd2⟩ := flmDP_self l
  simp only [findLongestMatch]
  rw [← hd1]
  rw [extBack_self l (flmDP l l 0 l.length 0 l.length).1
    (flmDP l l 0 l.length 0 l.length).2.2]
  show (0, 0, extFwd l l l.length l.length 0 0
    (l.length - (0 + ((flmDP l l 0 l.length 0 l.length).1
      + (flmDP l l 0 l.length 0 l.length).2.2)))
    ((flmDP l l 0 l.length 0 l.length).1
      + (flmDP l l 0 l.length 0 l.length).2.2)) = (0, 0, l.length)
  rw [extFwd_self l _ _ (by omega) (by omega)]

theorem blocksFuel_self (l : List String) (fuel : Nat)
    (hn : l.length ≠ 0) :
    blocksFuel l l (fuel + 1) 0 l.length 0 l.length = [(0, 0, l.length)] := by
  simp only [blocksFuel, findLongestMatch_self]
  rw [if_neg hn]
  rw [if_neg (show ¬((0 : Nat) < 0 ∧ (0 : Nat) < 0) from fun hc => by omega)]
  rw [if_neg (show ¬(0 + l.length < l.length ∧ 0 + l.length < l.length)
    from fun hc => by omega)]
  rfl

theorem matchingBlocks_self (l : List String) (hn : l.length ≠ 0) :
    matchingBlocks l l = [(0, 0, l.length), (l.length, l.length, 0)] := by
  simp only [matchingBlocks, blocksFuel_self l (l.length + l.length) hn,
    List.foldl_cons, List.foldl_nil, mergeStep]
  simp [hn]

theorem getOpcodes_self (l : List String) (hn : l.length ≠ 0) :
    getOpcodes l l = [⟨.equal, 0, l.length, 0, l.length⟩] := by
  simp only [getOpcodes, matchingBlocks_self l hn, List.foldl_cons,
    List.foldl_nil, opcodeStep]
  simp [hn]

/-- C10: self-comparison yields no mismatches — for every text `t`,
`find_bad_words(t, t)` is empty: identical inputs normalize to identical
token lists, the matcher recovers the full-range match, the opcodes are a
single `equal` run, and nothing is flagged. -/
theorem find_bad_words_self (t : String) : find_bad_words t t = [] := by
  have heq : find_bad_words t t
      = dedupFilter []
          (rawBadWords (cleanTextWords t) (cleanTextWords t)
            (getOpcodes (cleanTextWords t) (cleanTextWords t))) := rfl
  rw [heq]
  by_cases hn : (cleanTextWords t).length = 0
  · have hl : cleanTextWords t = [] := List.length_eq_zero.mp hn
    rw [hl]
    rfl
  · rw [getOpcodes_self (cleanTextWords t) hn]
    rfl
